import Mathlib

/-!
# Verification of the orchestration engine (scripts/04_orchestration_engine.py)

Shallow embedding of the `TaskExecutionEngine` class: dependency-graph
validation (recursive cycle DFS and unknown-dependency scan), Kahn topological
sort, skip-condition evaluation, the retry/backoff loop, and the pipeline
scheduler `execute_pipeline`.

Modelling conventions:
* A Python task dict `{task_name: config}` is a `List Task` in declaration
  order; dict keys are unique, which theorems assume via `(allNames tasks).Nodup`
  where needed.
* Collaborators are explicit: the audit logger becomes an `Event` trace, the
  Spark watermark query becomes `Env.wm : Option Nat` (`none` models the query
  raising), and `executors` becomes `Env.execs : String → Option (Nat → ExecOutcome)`
  giving the outcome of each (1-based) invocation of a task's executor.
* Wall-clock durations are not modelled (they are reported, never branched on);
  backoff sleeps are recorded as `Event.sleepFor` with the exact second count.
* Python iterates `set(tasks.keys())` when choosing DFS roots; set iteration
  order is implementation defined, and we fix it to declaration order.
* An uncaught `CriticalTaskFailure` is `PipeResult.critical msg`; the local
  `summary` dict that Python discards at the raise is observable through
  `runLoop`, which `execute_pipeline` wraps without changing behaviour.
-/

namespace Orchestration

/-- Task status strings used by the engine (`"SUCCESS"`, `"FAILED"`, `"SKIPPED"`). -/
inductive TStatus
  | SUCCESS
  | FAILED
  | SKIPPED
deriving DecidableEq, Repr

/-- The per-task result dict stored in `task_results`; only `status` and
`attempt` are ever read by the engine (a skip stores no attempt: we use 0). -/
structure TaskResult where
  status : TStatus
  attempt : Nat
deriving DecidableEq, Repr

/-- A task declaration: the config dict with its `.get` defaults applied
(`critical` defaults to true, `max_retries` to 2, `depends_on` to `[]`). -/
structure Task where
  name : String
  depends_on : List String := []
  critical : Bool := true
  max_retries : Nat := 2
  skip_on_condition : Option String := none
deriving DecidableEq, Repr

/-- The task names in declaration order (`tasks.keys()`). -/
def allNames (tasks : List Task) : List String := tasks.map (fun t => t.name)

/-- `tasks.get(n)`: the first task declared with name `n`. -/
def getTask (tasks : List Task) (n : String) : Option Task :=
  tasks.find? (fun t => t.name == n)

/-- `tasks.get(n, {}).get('depends_on', [])`. -/
def deps (tasks : List Task) (n : String) : List String :=
  match getTask tasks n with
  | some t => t.depends_on
  | none => []

/-- The dependency edge relation: `Edge tasks v w` iff task `v` declares a
dependency on `w`. -/
def Edge (tasks : List Task) (v w : String) : Prop := w ∈ deps tasks v

instance (tasks : List Task) (v w : String) : Decidable (Edge tasks v w) := by
  unfold Edge; infer_instance

/-- Graph validation errors (`TaskDependencyError` payloads). -/
inductive DepError
  | cycle (task : String)
  | unknownDep (task dep : String)
deriving DecidableEq, Repr

instance {ε α : Type} [DecidableEq ε] [DecidableEq α] : DecidableEq (Except ε α) := fun x y =>
  match x, y with
  | .ok a, .ok b => if h : a = b then .isTrue (by rw [h]) else .isFalse (by simp [h])
  | .error a, .error b => if h : a = b then .isTrue (by rw [h]) else .isFalse (by simp [h])
  | .ok _, .error _ => .isFalse (by simp)
  | .error _, .ok _ => .isFalse (by simp)

/-- All names appearing anywhere (task names and dependency names): the finite
universe the DFS can visit. -/
def universeL (tasks : List Task) : List String :=
  allNames tasks ++ (tasks.map (fun t => t.depends_on)).flatten

/-- Fuel bound for the DFS: strictly more than the number of distinct nodes. -/
def dfsFuel (tasks : List Task) : Nat := (universeL tasks).length + 1

/-- The `for dep in depends_on` scan inside `has_cycle`, abstracted over the
recursive call `f` on unvisited dependencies: report a cycle on a dependency
found on the stack, otherwise recurse and thread the mutated sets. -/
def hasCycleDeps (f : String → List String → List String → Bool × List String × List String) :
    List String → List String → List String → Bool × List String × List String
  | [], vis, rs => (false, vis, rs)
  | d :: ds, vis, rs =>
      if d ∈ vis then
        if d ∈ rs then (true, vis, rs)
        else hasCycleDeps f ds vis rs
      else
        match f d vis rs with
        | (true, v, r) => (true, v, r)
        | (false, v, r) => hasCycleDeps f ds v r

/-- The recursive `has_cycle(task, visited, rec_stack)`: marks `t` visited and
on-stack, scans its dependencies, and pops `t` from the stack on a clean
return.  `fuel` bounds the recursion depth; `dfsFuel` is always enough. -/
def hasCycleNode (tasks : List Task) : Nat → String → List String → List String →
    Bool × List String × List String
  | 0, _, vis, rs => (true, vis, rs)
  | fuel + 1, t, vis, rs =>
      match hasCycleDeps (fun d v r => hasCycleNode tasks fuel d v r)
          (deps tasks t) (t :: vis) (t :: rs) with
      | (true, v, r) => (true, v, r)
      | (false, v, r) => (false, v, r.erase t)

/-- The `for task in all_tasks: if task not in visited: has_cycle(...)` loop,
threading the shared `visited` and `rec_stack` sets. -/
def validateCyclesLoop (tasks : List Task) :
    List String → List String → List String → Except DepError (List String × List String)
  | [], vis, rs => .ok (vis, rs)
  | r :: rest, vis, rs =>
      if r ∈ vis then validateCyclesLoop tasks rest vis rs
      else
        match hasCycleNode tasks (dfsFuel tasks) r vis rs with
        | (true, _, _) => .error (.cycle r)
        | (false, v, rr) => validateCyclesLoop tasks rest v rr

/-- All `(task, dep)` pairs in declaration order. -/
def depPairs (tasks : List Task) : List (String × String) :=
  (tasks.map (fun t => t.depends_on.map (fun d => (t.name, d)))).flatten

/-- The unknown-dependency scan: first declared dependency that is not a task. -/
def unknownScan (names : List String) : List (String × String) → Except DepError Unit
  | [] => .ok ()
  | (t, d) :: rest =>
      if d ∈ names then unknownScan names rest else .error (.unknownDep t d)

/-- `validate_dependency_graph`: cycle check first (over roots in declaration
order), then the unknown-dependency check. -/
def validate_dependency_graph (tasks : List Task) : Except DepError Unit := do
  let _ ← validateCyclesLoop tasks (allNames tasks) [] []
  unknownScan (allNames tasks) (depPairs tasks)

/-- `adjacency[d]`: the dependents of `d`, one occurrence per declared edge,
in declaration order. -/
def adjacencyOf (tasks : List Task) (d : String) : List String :=
  (tasks.map (fun t => t.depends_on.filterMap
    (fun x => if x = d then some t.name else none))).flatten

/-- Initial in-degree: the number of declared dependencies (with multiplicity).
`Int` because Python integers may in principle go negative on decrement. -/
def indeg0 (tasks : List Task) (n : String) : Int := ((deps tasks n).length : Int)

/-- The `for neighbor in adjacency[task]` body of Kahn's loop: decrement each
neighbour's in-degree and enqueue it when it reaches zero. -/
def processAdj : List String → List String → (String → Int) → List String × (String → Int)
  | [], q, ind => (q, ind)
  | v :: rest, q, ind =>
      let ind1 := fun x => if x = v then ind x - 1 else ind x
      let q1 := if ind1 v = 0 then q ++ [v] else q
      processAdj rest q1 ind1

/-- The `while queue:` loop of Kahn's algorithm.  Each task enters the queue at
most once, so fuel `tasks.length` is always enough. -/
def kahnLoop (tasks : List Task) : Nat → List String → List String → (String → Int) → List String
  | 0, _, result, _ => result
  | _ + 1, [], result, _ => result
  | fuel + 1, t :: q, result, ind =>
      let p := processAdj (adjacencyOf tasks t) q ind
      kahnLoop tasks fuel p.1 (result ++ [t]) p.2

/-- `topological_sort`: validate, then run Kahn's algorithm seeded with the
zero-in-degree tasks in declaration order. -/
def topological_sort (tasks : List Task) : Except DepError (List String) := do
  let _ ← validate_dependency_graph tasks
  let names := allNames tasks
  let queue := names.filter (fun n => indeg0 tasks n == 0)
  pure (kahnLoop tasks names.length queue [] (indeg0 tasks))

/-- The outcome of one invocation of a task's executor: a result dict with
`rows_processed` (`get` default 0 is applied at construction), or a raise. -/
inductive ExecOutcome
  | ok (rows : Nat)
  | err
deriving DecidableEq, Repr

/-- The engine's collaborators: the Spark watermark count (`none` models the
query raising) and the caller-supplied executors, each giving the outcome of
its k-th (1-based) invocation. -/
structure Env where
  wm : Option Nat
  execs : String → Option (Nat → ExecOutcome)

/-- Observable side effects: audit-logger notifications, executor invocations,
and backoff sleeps. -/
inductive Event
  | taskStart (name : String) (execOrder : Nat) (attempt : Nat)
  | execCall (name : String) (attempt : Nat)
  | taskSuccess (name : String) (rows : Nat)
  | taskFailure (name : String)
  | taskSkip (name : String) (reason : Option String)
  | sleepFor (seconds : Nat)
  | endRun (status : String) (succeeded failed skipped : Nat) (errorSummary : String)
deriving DecidableEq, Repr

/-- Engine instance state that persists across `execute_pipeline` calls
(`self.execution_order` and `self.task_results`; dict writes are modelled by
prepending, dict reads by first-match `lookup`). -/
structure EngineSt where
  execution_order : List (String × Nat) := []
  task_results : List (String × TaskResult) := []
deriving Repr

/-- The `summary` dict built by `execute_pipeline`. -/
structure Summary where
  total_tasks : Nat
  successful_tasks : Nat
  failed_tasks : Nat
  skipped_tasks : Nat
  task_results : List (String × TaskResult)
  failed_tasks_list : List String
deriving DecidableEq, Repr

/-- `should_skip_task`: `None` and `""` are falsy; only `"if_no_new_files"` is
recognized, and it skips exactly when the watermark query returns 0; a raising
query (`wm = none`) and unrecognized conditions return false. -/
def should_skip_task (env : Env) (skipCondition : Option String) : Bool :=
  match skipCondition with
  | none => false
  | some c =>
    if c = "" then false
    else if c = "if_no_new_files" then
      match env.wm with
      | some k => k == 0
      | none => false
    else false

/-- The `while attempt <= max_retries` body of `execute_task_with_retries`,
at attempt number `attempt` with `remaining` retries still allowed. -/
def retryGo (name : String) (execOrder : Nat) (ex : Nat → ExecOutcome) :
    Nat → Nat → Bool × TaskResult × List Event
  | attempt, remaining =>
    let evs := [Event.taskStart name execOrder attempt, Event.execCall name attempt]
    match ex attempt with
    | .ok rows =>
        (true, ⟨.SUCCESS, attempt⟩, evs ++ [Event.taskSuccess name rows])
    | .err =>
        match remaining with
        | 0 => (false, ⟨.FAILED, attempt⟩, evs ++ [Event.taskFailure name])
        | r + 1 =>
            let rec1 := retryGo name execOrder ex (attempt + 1) r
            (rec1.1, rec1.2.1, evs ++ [Event.sleepFor (2 ^ (attempt - 1))] ++ rec1.2.2)

/-- `execute_task_with_retries`: attempts start at 1 with `max_retries`
retries in budget; logs start/success/failure and sleeps `2^(attempt-1)`
seconds between failed attempts. -/
def execute_task_with_retries (name : String) (execOrder : Nat)
    (ex : Nat → ExecOutcome) (max_retries : Nat) : Bool × TaskResult × List Event :=
  retryGo name execOrder ex 1 max_retries

/-- The dependency check: every declared dependency must have a recorded
status equal to `SUCCESS` in the engine-level `task_results`. -/
def depsSatisfied (st : EngineSt) (ds : List String) : Bool :=
  ds.all (fun d =>
    match st.task_results.lookup d with
    | some r => r.status == TStatus.SUCCESS
    | none => false)

/-- One iteration of the `for task_name in execution_plan` loop: skip check,
dependency check, executor lookup, retried execution, propagation.  The first
component is `some msg` when the iteration raises `CriticalTaskFailure msg`. -/
def processTask (env : Env) (st : EngineSt) (sum : Summary) (t : Task) :
    Option String × EngineSt × Summary × List Event :=
  if should_skip_task env t.skip_on_condition then
    (none,
     { st with task_results := (t.name, ⟨.SKIPPED, 0⟩) :: st.task_results },
     { sum with skipped_tasks := sum.skipped_tasks + 1 },
     [Event.taskSkip t.name t.skip_on_condition])
  else if ¬ depsSatisfied st t.depends_on then
    if t.critical then
      (some (s!"Critical task {t.name} blocked by failed dependency"),
       st,
       { sum with failed_tasks := sum.failed_tasks + 1,
                  failed_tasks_list := sum.failed_tasks_list ++ [t.name] },
       [])
    else
      (none, st,
       { sum with skipped_tasks := sum.skipped_tasks + 1 },
       [Event.taskSkip t.name (some "dependency_failed")])
  else
    match env.execs t.name with
    | none =>
        (none, st,
         { sum with failed_tasks := sum.failed_tasks + 1,
                    failed_tasks_list := sum.failed_tasks_list ++ [t.name] },
         [])
    | some ex =>
        let execOrder := (st.execution_order.lookup t.name).getD 0
        let r := execute_task_with_retries t.name execOrder ex t.max_retries
        let st1 := { st with task_results := (t.name, r.2.1) :: st.task_results }
        let sum1 := { sum with task_results := sum.task_results ++ [(t.name, r.2.1)] }
        if r.1 then
          (none, st1, { sum1 with successful_tasks := sum1.successful_tasks + 1 }, r.2.2)
        else
          let sum2 := { sum1 with failed_tasks := sum1.failed_tasks + 1,
                                  failed_tasks_list := sum1.failed_tasks_list ++ [t.name] }
          if t.critical then
            (some (s!"Critical task {t.name} failed"), st1, sum2, r.2.2)
          else
            (none, st1, sum2, r.2.2)

/-- The task loop of `execute_pipeline` over the execution plan; stops at the
first raised `CriticalTaskFailure`, whose message is the first component. -/
def runLoop (env : Env) (tasks : List Task) :
    List String → EngineSt → Summary → Option String × EngineSt × Summary × List Event
  | [], st, sum => (none, st, sum, [])
  | n :: rest, st, sum =>
    match getTask tasks n with
    | none => runLoop env tasks rest st sum
    | some t =>
      match processTask env st sum t with
      | (some msg, st1, sum1, evs) => (some msg, st1, sum1, evs)
      | (none, st1, sum1, evs) =>
        let r := runLoop env tasks rest st1 sum1
        (r.1, r.2.1, r.2.2.1, evs ++ r.2.2.2)

/-- What a call of `execute_pipeline` does for the caller: return
`(False, {"error": msg})` on a graph error, return `(success, summary)` on a
completed pass, or propagate an uncaught `CriticalTaskFailure`. -/
inductive PipeResult
  | depError (msg : String)
  | critical (msg : String)
  | completed (success : Bool) (sum : Summary)
deriving DecidableEq, Repr

/-- The `TaskDependencyError` message strings raised by validation. -/
def renderDepError : DepError → String
  | .cycle t => s!"Circular dependency detected involving {t}"
  | .unknownDep t d => s!"Task {t} depends on non-existent task {d}"

/-- The empty summary for a plan of `total` tasks. -/
def initialSummary (total : Nat) : Summary :=
  { total_tasks := total, successful_tasks := 0, failed_tasks := 0,
    skipped_tasks := 0, task_results := [], failed_tasks_list := [] }

/-- The 1-based execution-order entries recorded by `topological_sort`. -/
def planOrders (plan : List String) : List (String × Nat) :=
  plan.enum.map (fun p => (p.2, p.1 + 1))

/-- The state `execute_pipeline` passes to its task loop after recording the
execution order of `plan` on top of engine state `st0`. -/
def afterSortState (st0 : EngineSt) (plan : List String) : EngineSt :=
  { st0 with execution_order := planOrders plan ++ st0.execution_order }

/-- `execute_pipeline`: validate and sort (returning the error dict on a graph
error), walk the plan, and on a pass that was not aborted compute the overall
status, notify `end_run`, and return `(success, summary)`.  An abort
propagates `CriticalTaskFailure` without notifying `end_run`. -/
def execute_pipeline (env : Env) (st0 : EngineSt) (tasks : List Task) :
    PipeResult × EngineSt × List Event :=
  match topological_sort tasks with
  | .error e => (.depError (renderDepError e), st0, [])
  | .ok plan =>
    let r := runLoop env tasks plan (afterSortState st0 plan) (initialSummary plan.length)
    match r.1 with
    | some msg => (.critical msg, r.2.1, r.2.2.2)
    | none =>
      let sum := r.2.2.1
      let overall := sum.failed_tasks == 0
      let statusStr := if overall then "SUCCESS" else "FAILED"
      let errSum := if sum.failed_tasks_list.isEmpty then "" else
        "Failed tasks: " ++ String.intercalate ", " sum.failed_tasks_list
      (.completed overall sum, r.2.1,
       r.2.2.2 ++ [Event.endRun statusStr sum.successful_tasks sum.failed_tasks
                     sum.skipped_tasks errSum])

/-! ### Derived definitions used by the specification statements -/

/-- Acyclicity of the declared dependency graph: no task can reach itself
through a nonempty chain of `depends_on` edges. -/
def Acyclic (tasks : List Task) : Prop :=
  ∀ v, ¬ Relation.TransGen (Edge tasks) v v

/-- Every name occurring in some task's `depends_on` list. -/
def depNames (tasks : List Task) : List String :=
  (tasks.map (fun t => t.depends_on)).flatten

/-- DFS measure: how many nodes of the finite universe are not yet visited. -/
def mU (tasks : List Task) (vis : List String) : Nat :=
  ((universeL tasks).toFinset \ vis.toFinset).card

/-- Invariant of the cycle DFS: the "black" nodes (visited and off-stack) only
reach black nodes, and no black node lies on a cycle. -/
def BlackClosed (tasks : List Task) (vis rs : List String) : Prop :=
  (∀ v, v ∈ vis → v ∉ rs → ∀ w, Edge tasks v w → w ∈ vis ∧ w ∉ rs) ∧
  (∀ v, v ∈ vis → v ∉ rs → ¬ Relation.TransGen (Edge tasks) v v)

/-- Loop invariant of Kahn's algorithm over the state
(queue `Q`, result `R`, in-degree map `ind`). -/
def KInv (tasks : List Task) (Q R : List String) (ind : String → Int) : Prop :=
  (R ++ Q).Nodup ∧
  (∀ x ∈ R ++ Q, x ∈ allNames tasks) ∧
  (∀ v ∈ allNames tasks,
    ind v = (((deps tasks v).countP (fun d => decide (d ∉ R))) : Int)) ∧
  (∀ v ∈ Q, ind v = 0) ∧
  (∀ v ∈ allNames tasks, ind v = 0 → v ∈ R ∨ v ∈ Q) ∧
  (∀ i v, R.get? i = some v → ∀ d ∈ deps tasks v, d ∈ R.take i)

/-- The backoff seconds recorded in a trace, in order. -/
def sleepsOf (evs : List Event) : List Nat :=
  evs.filterMap (fun e => match e with | .sleepFor s => some s | _ => none)

/-- The attempt numbers of the executor invocations recorded in a trace. -/
def execAttempts (evs : List Event) : List Nat :=
  evs.filterMap (fun e => match e with | .execCall _ a => some a | _ => none)

/-- The executor invocations recorded in a trace, with the task name. -/
def execCallsOf (evs : List Event) : List (String × Nat) :=
  evs.filterMap (fun e => match e with | .execCall n a => some (n, a) | _ => none)

/-- The run-completion notifications recorded in a trace. -/
def endRunsOf (evs : List Event) : List Event :=
  evs.filter (fun e => match e with | .endRun _ _ _ _ _ => true | _ => false)

/-- The exact trace of a task whose executor fails on every attempt, starting
at attempt `a` with `r` retries still in budget. -/
def failEvents (n : String) (o : Nat) : Nat → Nat → List Event
  | a, 0 => [.taskStart n o a, .execCall n a, .taskFailure n]
  | a, r + 1 =>
      [.taskStart n o a, .execCall n a, .sleepFor (2 ^ (a - 1))] ++ failEvents n o (a + 1) r

/-- Apply an optional `task_results` write to an engine state (used to state
that one scheduler step performs the same write on two different states). -/
def applyUpd (st : EngineSt) (u : Option (String × TaskResult)) : EngineSt :=
  match u with
  | none => st
  | some p => { st with task_results := p :: st.task_results }

/-! ### Concrete fixtures used by counterexamples and witnesses -/

/-- Executor map built from an association list (unlisted tasks have none). -/
def execsOf (l : List (String × (Nat → ExecOutcome))) : String → Option (Nat → ExecOutcome) :=
  fun n => l.lookup n

/-- The fresh engine state of a newly constructed `TaskExecutionEngine`. -/
def freshEngine : EngineSt := { execution_order := [], task_results := [] }

/-- C2 family: `A` (critical, no deps), `B` (depends on A, non-critical,
`max_retries = M`), `C` (depends on B, critical). -/
def c2Tasks (M : Nat) : List Task :=
  [{ name := "A" },
   { name := "B", depends_on := ["A"], critical := false, max_retries := M },
   { name := "C", depends_on := ["B"] }]

/-- C2 family environment: `A` always succeeds (with `rows` rows), `B` always
raises, `C` would succeed if it ever ran. -/
def c2Env (rows : Nat) : Env :=
  { wm := none,
    execs := execsOf [("A", fun _ => .ok rows), ("B", fun _ => .err), ("C", fun _ => .ok 1)] }

/-! ## Theorems -/

/-! ### Retry/backoff (C3) -/

theorem retryGo_fail_eq (n : String) (o : Nat) (ex : Nat → ExecOutcome)
    (hfail : ∀ k, ex k = .err) :
    ∀ r a, retryGo n o ex a r = (false, ⟨.FAILED, a + r⟩, failEvents n o a r) := by
  intro r
  induction r with
  | zero =>
      intro a
      simp [retryGo, hfail a, failEvents]
  | succ r ih =>
      intro a
      simp only [retryGo, hfail a, failEvents, ih (a + 1)]
      simp [Nat.add_assoc, Nat.add_comm 1 r]

theorem sleepsOf_append (l₁ l₂ : List Event) :
    sleepsOf (l₁ ++ l₂) = sleepsOf l₁ ++ sleepsOf l₂ := by
  simp [sleepsOf]

theorem execAttempts_append (l₁ l₂ : List Event) :
    execAttempts (l₁ ++ l₂) = execAttempts l₁ ++ execAttempts l₂ := by
  simp [execAttempts]

theorem range_map_add_shift (r a : Nat) :
    (List.range (r + 1)).map (fun i => a + i) =
      a :: (List.range r).map (fun i => a + 1 + i) := by
  rw [List.range_succ_eq_map, List.map_cons, List.map_map]
  refine congrArg₂ _ (by simp) (List.map_congr_left ?_)
  intro i _
  simp only [Function.comp_apply]
  omega

theorem range_map_pow_shift (r a : Nat) :
    (List.range (r + 1)).map (fun i => 2 ^ (a + i)) =
      2 ^ a :: (List.range r).map (fun i => 2 ^ (a + 1 + i)) := by
  rw [List.range_succ_eq_map, List.map_cons, List.map_map]
  refine congrArg₂ _ (by simp) (List.map_congr_left ?_)
  intro i _
  simp only [Function.comp_apply]
  congr 1
  omega

theorem sleepsOf_failEvents (n : String) (o : Nat) :
    ∀ r a, sleepsOf (failEvents n o (a + 1) r) = (List.range r).map (fun i => 2 ^ (a + i)) := by
  intro r
  induction r with
  | zero => intro a; simp [failEvents, sleepsOf]
  | succ r ih =>
      intro a
      rw [show failEvents n o (a + 1) (r + 1) =
            [.taskStart n o (a + 1), .execCall n (a + 1), .sleepFor (2 ^ (a + 1 - 1))] ++
              failEvents n o (a + 1 + 1) r from rfl]
      rw [sleepsOf_append, ih (a + 1),
        show sleepsOf [.taskStart n o (a + 1), .execCall n (a + 1),
          .sleepFor (2 ^ (a + 1 - 1))] = [2 ^ (a + 1 - 1)] from rfl]
      rw [List.singleton_append, range_map_pow_shift]
      norm_num

theorem execAttempts_failEvents (n : String) (o : Nat) :
    ∀ r a, execAttempts (failEvents n o a r) = (List.range (r + 1)).map (fun i => a + i) := by
  intro r
  induction r with
  | zero =>
      intro a
      rw [show execAttempts (failEvents n o a 0) = [a] from rfl]
      simp [List.range_succ]
  | succ r ih =>
      intro a
      rw [show failEvents n o a (r + 1) =
            [.taskStart n o a, .execCall n a, .sleepFor (2 ^ (a - 1))] ++
              failEvents n o (a + 1) r from rfl]
      rw [execAttempts_append, ih (a + 1),
        show execAttempts [.taskStart n o a, .execCall n a,
          .sleepFor (2 ^ (a - 1))] = [a] from rfl]
      rw [List.singleton_append, range_map_add_shift (r + 1) a]

/-- C3: a task whose executor raises on every invocation and has
`max_retries = N` is attempted exactly `N+1` times (attempt numbers
`1, …, N+1`), sleeps `2^(i-1)` seconds after the i-th failed attempt for
`i = 1..N` (backoff `1, 2, …, 2^(N-1)`, and no sleep after the final attempt),
and returns `success = False` with status `FAILED`. -/
theorem c3_retry_backoff (n : String) (o : Nat) (ex : Nat → ExecOutcome) (N : Nat)
    (hfail : ∀ k, ex k = .err) :
    (execute_task_with_retries n o ex N).1 = false ∧
    (execute_task_with_retries n o ex N).2.1 = ⟨.FAILED, N + 1⟩ ∧
    execAttempts (execute_task_with_retries n o ex N).2.2 =
      (List.range (N + 1)).map (fun i => 1 + i) ∧
    sleepsOf (execute_task_with_retries n o ex N).2.2 =
      (List.range N).map (fun i => 2 ^ i) := by
  have h := retryGo_fail_eq n o ex hfail N 1
  unfold execute_task_with_retries
  rw [h]
  refine ⟨rfl, by simp [Nat.add_comm], ?_, ?_⟩
  · rw [execAttempts_failEvents]
  · have := sleepsOf_failEvents n o N 0
    simpa using this

/-- Witness for C3 at `N = 2`: three attempts, sleeps `[1, 2]`, ends FAILED. -/
theorem c3_retry_backoff_witness :
    (execute_task_with_retries "T" 0 (fun _ => .err) 2).1 = false ∧
    (execute_task_with_retries "T" 0 (fun _ => .err) 2).2.1 = ⟨.FAILED, 3⟩ ∧
    execAttempts (execute_task_with_retries "T" 0 (fun _ => .err) 2).2.2 =
      (List.range 3).map (fun i => 1 + i) ∧
    sleepsOf (execute_task_with_retries "T" 0 (fun _ => .err) 2).2.2 =
      (List.range 2).map (fun i => 2 ^ i) :=
  c3_retry_backoff "T" 0 (fun _ => .err) 2 (fun _ => rfl)

/-! ### Skip-condition evaluation (C9) -/

/-- C9: `should_skip_task` answers "do not skip" in every non-positive case:
when the skip condition is absent, when the named predicate is not recognized
(only `"if_no_new_files"` is), and when the watermark query raises
(`env.wm = none`). -/
theorem c9_skip_fail_open (env : Env) (c : Option String)
    (h : c = none ∨ (∃ s, c = some s ∧ s ≠ "if_no_new_files") ∨
         (c = some "if_no_new_files" ∧ env.wm = none)) :
    should_skip_task env c = false := by
  rcases h with h | ⟨s, rfl, hs⟩ | ⟨rfl, hw⟩
  · subst h; rfl
  · by_cases he : s = ""
    · subst he; rfl
    · simp [should_skip_task, he, hs]
  · simp [should_skip_task, hw]

/-- Witness for C9: an unrecognized predicate name evaluates to "do not skip". -/
theorem c9_skip_fail_open_witness :
    should_skip_task { wm := some 0, execs := fun _ => none } (some "if_not_updated") = false :=
  c9_skip_fail_open _ _ (Or.inr (Or.inl ⟨"if_not_updated", rfl, by decide⟩))

/-! ### Run-completion notification discipline (C1) -/

theorem endRunsOf_append (l₁ l₂ : List Event) :
    endRunsOf (l₁ ++ l₂) = endRunsOf l₁ ++ endRunsOf l₂ := by
  simp [endRunsOf]

theorem endRunsOf_retryGo (n : String) (o : Nat) (ex : Nat → ExecOutcome) :
    ∀ r a, endRunsOf (retryGo n o ex a r).2.2 = [] := by
  intro r
  induction r with
  | zero => intro a; cases h : ex a <;> simp [retryGo, h, endRunsOf]
  | succ r ih =>
      intro a
      cases h : ex a with
      | ok rows => simp [retryGo, h, endRunsOf]
      | err =>
          rw [show (retryGo n o ex a (r + 1)).2.2 =
                [Event.taskStart n o a, Event.execCall n a] ++
                  [Event.sleepFor (2 ^ (a - 1))] ++ (retryGo n o ex (a + 1) r).2.2 from by
              simp [retryGo, h]]
          rw [endRunsOf_append, endRunsOf_append, ih (a + 1)]
          rfl

theorem endRunsOf_processTask (env : Env) (st : EngineSt) (sum : Summary) (t : Task) :
    endRunsOf (processTask env st sum t).2.2.2 = [] := by
  unfold processTask
  split
  · rfl
  · split
    · split
      · rfl
      · rfl
    · split
      · rfl
      · dsimp only
        split
        · exact endRunsOf_retryGo _ _ _ _ _
        · split
          · exact endRunsOf_retryGo _ _ _ _ _
          · exact endRunsOf_retryGo _ _ _ _ _

theorem endRunsOf_runLoop (env : Env) (tasks : List Task) :
    ∀ plan st sum, endRunsOf (runLoop env tasks plan st sum).2.2.2 = [] := by
  intro plan
  induction plan with
  | nil => intro st sum; simp [runLoop, endRunsOf]
  | cons n rest ih =>
      intro st sum
      cases hg : getTask tasks n with
      | none => simp [runLoop, hg, ih]
      | some t =>
          have hpt := endRunsOf_processTask env st sum t
          rcases hp : processTask env st sum t with ⟨ab, st1, sum1, evs⟩
          rw [hp] at hpt
          cases ab with
          | some msg => simp [runLoop, hg, hp]; exact hpt
          | none => simp [runLoop, hg, hp, endRunsOf_append]; exact ⟨hpt, ih _ _⟩

/-- C1 (amended): `execute_pipeline` notifies `end_run` exactly on a pass that
was not aborted — a completed run emits exactly one `end_run` with the
returned summary's counts, while a fatal `CriticalTaskFailure` abort
propagates to the caller with NO `end_run` notification and no returned
summary. -/
theorem c1_end_run_discipline (env : Env) (st : EngineSt) (tasks : List Task) :
    (∀ msg, (execute_pipeline env st tasks).1 = .critical msg →
        endRunsOf (execute_pipeline env st tasks).2.2 = []) ∧
    (∀ b sum, (execute_pipeline env st tasks).1 = .completed b sum →
        endRunsOf (execute_pipeline env st tasks).2.2 =
          [.endRun (if b then "SUCCESS" else "FAILED")
            sum.successful_tasks sum.failed_tasks sum.skipped_tasks
            (if sum.failed_tasks_list.isEmpty then "" else
              "Failed tasks: " ++ String.intercalate ", " sum.failed_tasks_list)]) := by
  cases hs : topological_sort tasks with
  | error e =>
      constructor
      · intro msg h
        simp [execute_pipeline, hs] at h
      · intro b sum h
        simp [execute_pipeline, hs] at h
  | ok plan =>
      have hloop := endRunsOf_runLoop env tasks plan (afterSortState st plan)
        (initialSummary plan.length)
      cases hr : (runLoop env tasks plan (afterSortState st plan)
          (initialSummary plan.length)).1 with
      | some msg =>
          constructor
          · intro m h
            simp [execute_pipeline, hs, hr]
            exact hloop
          · intro b sum h
            simp [execute_pipeline, hs, hr] at h
      | none =>
          constructor
          · intro m h
            simp [execute_pipeline, hs, hr] at h
          · intro b sum h
            simp only [execute_pipeline, hs, hr] at h ⊢
            injection h with hb hsum
            subst hb
            subst hsum
            rw [endRunsOf_append, hloop]
            rfl

/-- Counterexample to C1 as stated: a single critical task whose executor
always raises (with `max_retries = 0`) makes `execute_pipeline` propagate
`CriticalTaskFailure` — the audit sink receives no run-completion
notification and the caller receives no summary. -/
theorem c1_counterexample :
    (execute_pipeline { wm := none, execs := execsOf [("T", fun _ => .err)] }
        freshEngine [{ name := "T", max_retries := 0 }]).1 =
      .critical "Critical task T failed" ∧
    endRunsOf (execute_pipeline { wm := none, execs := execsOf [("T", fun _ => .err)] }
        freshEngine [{ name := "T", max_retries := 0 }]).2.2 = [] :=
  ⟨rfl, rfl⟩

/-- Witness for C1 (amended) on a completed run: an empty task set completes
and emits exactly one `end_run` with the summary counts. -/
theorem c1_end_run_discipline_witness :
    endRunsOf (execute_pipeline { wm := none, execs := fun _ => none }
        freshEngine []).2.2 = [.endRun "SUCCESS" 0 0 0 ""] := by
  have h := (c1_end_run_discipline { wm := none, execs := fun _ => none } freshEngine []).2
    true (initialSummary 0) rfl
  simpa using h

/-! ### Missing executor (C10) -/

/-- C10: a task that passes its skip and dependency checks but has no executor
is counted as failed (count and failed list) WITHOUT raising
`CriticalTaskFailure` even when critical, the loop continues, the engine
records no status for it (first conjunct: the engine state is returned
unchanged and no events are emitted); a task with an unrecorded dependency is
blocked (second conjunct); and a completed run is successful iff the failed
count is zero, so a failure-counted task forces an overall `Failed` result
(third conjunct). -/
theorem c10_missing_executor :
    (∀ (env : Env) (st : EngineSt) (sum : Summary) (t : Task),
      should_skip_task env t.skip_on_condition = false →
      depsSatisfied st t.depends_on = true →
      env.execs t.name = none →
      processTask env st sum t =
        (none, st,
         { sum with failed_tasks := sum.failed_tasks + 1,
                    failed_tasks_list := sum.failed_tasks_list ++ [t.name] }, [])) ∧
    (∀ (env : Env) (st : EngineSt) (sum : Summary) (u : Task) (d : String),
      should_skip_task env u.skip_on_condition = false →
      d ∈ u.depends_on → st.task_results.lookup d = none →
      processTask env st sum u =
        (if u.critical then
          (some (s!"Critical task {u.name} blocked by failed dependency"), st,
           { sum with failed_tasks := sum.failed_tasks + 1,
                      failed_tasks_list := sum.failed_tasks_list ++ [u.name] }, [])
         else
          (none, st, { sum with skipped_tasks := sum.skipped_tasks + 1 },
           [Event.taskSkip u.name (some "dependency_failed")]))) ∧
    (∀ (env : Env) (st : EngineSt) (tasks : List Task) (b : Bool) (sum : Summary),
      (execute_pipeline env st tasks).1 = .completed b sum →
      (b = true ↔ sum.failed_tasks = 0)) := by
  refine ⟨?_, ?_, ?_⟩
  · intro env st sum t h1 h2 h3
    simp [processTask, h1, h2, h3]
  · intro env st sum u d h1 hd hl
    have h2 : depsSatisfied st u.depends_on = false := by
      rcases h : depsSatisfied st u.depends_on
      · rfl
      · exfalso
        have := (List.all_eq_true.mp h) d hd
        rw [hl] at this
        exact absurd this (by simp)
    by_cases hc : u.critical <;> simp [processTask, h1, h2, hc]
  · intro env st tasks b sum h
    cases hs : topological_sort tasks with
    | error e => simp [execute_pipeline, hs] at h
    | ok plan =>
        cases hr : (runLoop env tasks plan (afterSortState st plan)
            (initialSummary plan.length)).1 with
        | some msg => simp [execute_pipeline, hs, hr] at h
        | none =>
            simp only [execute_pipeline, hs, hr] at h
            injection h with hb hsum
            subst hb
            subst hsum
            simp

/-- Witness for C10: each conjunct applied at a concrete input — a task with
no executor is counted failed without aborting, a task whose dependency has no
recorded status is blocked (critical case shown), and a completed empty run is
successful iff no task failed. -/
theorem c10_missing_executor_witness :
    (processTask { wm := none, execs := fun _ => none } freshEngine (initialSummary 1)
        { name := "T" } =
      (none, freshEngine,
       { initialSummary 1 with failed_tasks := 1, failed_tasks_list := ["T"] }, [])) ∧
    (processTask { wm := none, execs := fun _ => none } freshEngine (initialSummary 1)
        { name := "U", depends_on := ["D"] } =
      (some "Critical task U blocked by failed dependency", freshEngine,
       { initialSummary 1 with failed_tasks := 1, failed_tasks_list := ["U"] }, [])) ∧
    (true = true ↔ (initialSummary 0).failed_tasks = 0) := by
  refine ⟨?_, ?_, ?_⟩
  · exact c10_missing_executor.1 _ _ _ _ rfl rfl rfl
  · have h := c10_missing_executor.2.1 { wm := none, execs := fun _ => none }
      freshEngine (initialSummary 1) { name := "U", depends_on := ["D"] } "D"
      rfl (by decide) rfl
    simpa using h
  · exact c10_missing_executor.2.2 { wm := none, execs := fun _ => none }
      freshEngine [] true (initialSummary 0) rfl

/-! ### Summary accounting (C7) -/

theorem lookup_append_single_isSome (l : List (String × TaskResult)) (m : String)
    (v : TaskResult) (n : String) :
    ((l ++ [(m, v)]).lookup n).isSome ↔ ((l.lookup n).isSome ∨ n = m) := by
  induction l with
  | nil =>
      by_cases h : n == m
      · simp [List.lookup, h, eq_of_beq h]
      · simp [List.lookup, h]
        intro he
        exact absurd (by simp [he] : (n == m) = true) (by simpa using h)
  | cons p rest ih =>
      by_cases h : n == p.1
      · simp [List.lookup, h]
      · simpa [List.lookup, h] using ih

theorem execCallsOf_append (l₁ l₂ : List Event) :
    execCallsOf (l₁ ++ l₂) = execCallsOf l₁ ++ execCallsOf l₂ := by
  simp [execCallsOf]

theorem execCallsOf_retryGo (nm : String) (o : Nat) (ex : Nat → ExecOutcome) :
    ∀ r a, (nm, a) ∈ execCallsOf (retryGo nm o ex a r).2.2 ∧
      ∀ p ∈ execCallsOf (retryGo nm o ex a r).2.2, p.1 = nm := by
  intro r
  induction r with
  | zero =>
      intro a
      cases h : ex a <;> simp [retryGo, h, execCallsOf]
  | succ r ih =>
      intro a
      cases h : ex a with
      | ok rows => simp [retryGo, h, execCallsOf]
      | err =>
          have hrw : (retryGo nm o ex a (r + 1)).2.2 =
              [Event.taskStart nm o a, Event.execCall nm a] ++
                [Event.sleepFor (2 ^ (a - 1))] ++ (retryGo nm o ex (a + 1) r).2.2 := by
            simp [retryGo, h]
          rw [hrw, execCallsOf_append, execCallsOf_append]
          constructor
          · simp [execCallsOf]
          · intro p hp
            rcases List.mem_append.mp hp with hp1 | hp2
            · rcases List.mem_append.mp hp1 with hp3 | hp4
              · simp [execCallsOf] at hp3
                simp [hp3]
              · simp [execCallsOf] at hp4
            · exact (ih (a + 1)).2 p hp2

theorem processTask_accounting (env : Env) (st : EngineSt) (sum : Summary) (t : Task)
    (st1 : EngineSt) (sum1 : Summary) (evs : List Event)
    (hp : processTask env st sum t = (none, st1, sum1, evs)) :
    sum1.total_tasks = sum.total_tasks ∧
    sum1.successful_tasks + sum1.failed_tasks + sum1.skipped_tasks =
      sum.successful_tasks + sum.failed_tasks + sum.skipped_tasks + 1 ∧
    ∀ n, (sum1.task_results.lookup n).isSome ↔
      ((sum.task_results.lookup n).isSome ∨ ∃ a, (n, a) ∈ execCallsOf evs) := by
  unfold processTask at hp
  split at hp
  · cases hp
    refine ⟨rfl, by dsimp only; omega, ?_⟩
    intro n
    simp [execCallsOf]
  · split at hp
    · split at hp
      · exact absurd hp (by simp)
      · cases hp
        refine ⟨rfl, by dsimp only; omega, ?_⟩
        intro n
        simp [execCallsOf]
    · split at hp
      · cases hp
        refine ⟨rfl, by dsimp only; omega, ?_⟩
        intro n
        simp [execCallsOf]
      · rename_i ex hex
        dsimp only at hp
        split at hp
        · cases hp
          refine ⟨rfl, by dsimp only; omega, ?_⟩
          intro n
          rw [lookup_append_single_isSome]
          constructor
          · rintro (h | rfl)
            · exact Or.inl h
            · exact Or.inr ⟨1, (execCallsOf_retryGo t.name _ _ t.max_retries 1).1⟩
          · rintro (h | ⟨a, ha⟩)
            · exact Or.inl h
            · exact Or.inr ((execCallsOf_retryGo t.name _ _ t.max_retries 1).2 (n, a) ha)
        · split at hp
          · exact absurd hp (by simp)
          · cases hp
            refine ⟨rfl, by dsimp only; omega, ?_⟩
            intro n
            rw [lookup_append_single_isSome]
            constructor
            · rintro (h | rfl)
              · exact Or.inl h
              · exact Or.inr ⟨1, (execCallsOf_retryGo t.name _ _ t.max_retries 1).1⟩
            · rintro (h | ⟨a, ha⟩)
              · exact Or.inl h
              · exact Or.inr ((execCallsOf_retryGo t.name _ _ t.max_retries 1).2 (n, a) ha)

theorem runLoop_accounting (env : Env) (tasks : List Task) :
    ∀ (plan : List String) (st : EngineSt) (sum : Summary) (st2 : EngineSt)
      (sum2 : Summary) (evs : List Event),
      runLoop env tasks plan st sum = (none, st2, sum2, evs) →
      (∀ n ∈ plan, (getTask tasks n).isSome) →
      sum2.total_tasks = sum.total_tasks ∧
      sum2.successful_tasks + sum2.failed_tasks + sum2.skipped_tasks =
        sum.successful_tasks + sum.failed_tasks + sum.skipped_tasks + plan.length ∧
      ∀ n, (sum2.task_results.lookup n).isSome ↔
        ((sum.task_results.lookup n).isSome ∨ ∃ a, (n, a) ∈ execCallsOf evs) := by
  intro plan
  induction plan with
  | nil =>
      intro st sum st2 sum2 evs h _
      cases h
      exact ⟨rfl, by simp, by intro n; simp [execCallsOf]⟩
  | cons m rest ih =>
      intro st sum st2 sum2 evs h hplan
      have hm : (getTask tasks m).isSome := hplan m (List.mem_cons_self m rest)
      obtain ⟨t, ht⟩ := Option.isSome_iff_exists.mp hm
      rcases hp : processTask env st sum t with ⟨ab1, stA, sumA, evsA⟩
      cases ab1 with
      | some msg => simp [runLoop, ht, hp] at h
      | none =>
          simp only [runLoop, ht, hp] at h
          rcases hr : runLoop env tasks rest stA sumA with ⟨ab2, stB, sumB, evsB⟩
          rw [hr] at h
          dsimp only at h
          rw [Prod.mk.injEq, Prod.mk.injEq, Prod.mk.injEq] at h
          obtain ⟨hab2, hstB, hsumB, hevs⟩ := h
          subst hab2
          subst hstB
          subst hsumB
          subst hevs
          have hstep := processTask_accounting env st sum t stA sumA evsA hp
          have hrest := ih stA sumA stB sumB evsB hr
            (fun n hn => hplan n (List.mem_cons_of_mem m hn))
          refine ⟨hrest.1.trans hstep.1, by
            have h1 := hstep.2.1
            have h2 := hrest.2.1
            simp [List.length_cons]
            omega, ?_⟩
          intro n
          rw [hrest.2.2 n, hstep.2.2 n, execCallsOf_append]
          constructor
          · rintro ((h | ⟨a, ha⟩) | ⟨a, ha⟩)
            · exact Or.inl h
            · exact Or.inr ⟨a, List.mem_append.mpr (Or.inl ha)⟩
            · exact Or.inr ⟨a, List.mem_append.mpr (Or.inr ha)⟩
          · rintro (h | ⟨a, ha⟩)
            · exact Or.inl (Or.inl h)
            · rcases List.mem_append.mp ha with h1 | h2
              · exact Or.inl (Or.inr ⟨a, h1⟩)
              · exact Or.inr ⟨a, h2⟩

theorem mem_allNames_getTask (tasks : List Task) (n : String)
    (h : n ∈ allNames tasks) : (getTask tasks n).isSome := by
  induction tasks with
  | nil => simp [allNames] at h
  | cons t ts ih =>
      simp only [allNames, List.map_cons, List.mem_cons] at h
      by_cases hb : t.name == n
      · unfold getTask
        simp [List.find?, hb]
      · rcases h with h | h
        · exact absurd (by simp [h]) hb
        · unfold getTask
          simp only [List.find?, hb]
          exact ih h

theorem adjacencyOf_mem (tasks : List Task) (d x : String)
    (h : x ∈ adjacencyOf tasks d) : x ∈ allNames tasks := by
  simp only [adjacencyOf, List.mem_flatten, List.mem_map] at h
  obtain ⟨l, ⟨t, ht, rfl⟩, hx⟩ := h
  obtain ⟨a, _, hax⟩ := List.mem_filterMap.mp hx
  simp only [allNames, List.mem_map]
  refine ⟨t, ht, ?_⟩
  by_cases had : a = d
  · simpa [had] using hax
  · simp [had] at hax

theorem processAdj_mem : ∀ (neigh q : List String) (ind : String → Int) (x : String),
    x ∈ (processAdj neigh q ind).1 → x ∈ q ∨ x ∈ neigh := by
  intro neigh
  induction neigh with
  | nil => intro q ind x hx; exact Or.inl hx
  | cons v rest ih =>
      intro q ind x hx
      rcases ih _ _ x hx with h | h
      · split at h
        · rcases List.mem_append.mp h with h1 | h2
          · exact Or.inl h1
          · simp at h2
            subst h2
            exact Or.inr (List.mem_cons_self _ _)
        · exact Or.inl h
      · exact Or.inr (List.mem_cons_of_mem _ h)

theorem kahnLoop_mem (tasks : List Task) :
    ∀ (fuel : Nat) (q res : List String) (ind : String → Int),
      (∀ x ∈ q, x ∈ allNames tasks) → (∀ x ∈ res, x ∈ allNames tasks) →
      ∀ x ∈ kahnLoop tasks fuel q res ind, x ∈ allNames tasks := by
  intro fuel
  induction fuel with
  | zero => intro q res ind _ hres x hx; exact hres x hx
  | succ fuel ih =>
      intro q res ind hq hres x hx
      cases q with
      | nil => exact hres x hx
      | cons t qs =>
          refine ih _ _ _ ?_ ?_ x hx
          · intro y hy
            rcases processAdj_mem _ _ _ y hy with h | h
            · exact hq y (List.mem_cons_of_mem _ h)
            · exact adjacencyOf_mem _ _ _ h
          · intro y hy
            rcases List.mem_append.mp hy with h | h
            · exact hres y h
            · simp at h
              subst h
              exact hq _ (List.mem_cons_self _ _)

theorem topological_sort_plan_names (tasks : List Task) (plan : List String)
    (hs : topological_sort tasks = .ok plan) : ∀ n ∈ plan, n ∈ allNames tasks := by
  intro n hn
  cases hv : validate_dependency_graph tasks with
  | error e => simp [topological_sort, hv] at hs
  | ok u =>
      unfold topological_sort at hs
      rw [hv] at hs
      dsimp only [Except.bind] at hs
      injection hs with hs
      subst hs
      exact kahnLoop_mem tasks _ _ _ _ (fun x hx => List.mem_of_mem_filter hx)
        (by intro x hx; simp at hx) n hn

/-- C7 (amended): on a completed (non-aborted) pass, the returned summary
accounts for every planned task in its counts
(`successful + failed + skipped = total`), but `summary.task_results` carries
an entry exactly for the tasks whose executor was actually invoked —
condition-skipped, dependency-skipped and executor-less tasks appear in the
counts only. -/
theorem c7_completed_summary (env : Env) (st : EngineSt) (tasks : List Task)
    (b : Bool) (sum : Summary)
    (h : (execute_pipeline env st tasks).1 = .completed b sum) :
    sum.successful_tasks + sum.failed_tasks + sum.skipped_tasks = sum.total_tasks ∧
    ∀ n, (sum.task_results.lookup n).isSome ↔
      ∃ a, (n, a) ∈ execCallsOf (execute_pipeline env st tasks).2.2 := by
  cases hs : topological_sort tasks with
  | error e => simp [execute_pipeline, hs] at h
  | ok plan =>
      rcases hr : runLoop env tasks plan (afterSortState st plan) (initialSummary plan.length)
        with ⟨ab, st2, sum2, evs⟩
      cases ab with
      | some msg => simp [execute_pipeline, hs, hr] at h
      | none =>
          simp only [execute_pipeline, hs, hr] at h
          injection h with hb hsum
          subst hb
          subst hsum
          have hplan : ∀ n ∈ plan, (getTask tasks n).isSome := fun n hn =>
            mem_allNames_getTask _ _ (topological_sort_plan_names tasks plan hs n hn)
          have hacc := runLoop_accounting env tasks plan (afterSortState st plan)
            (initialSummary plan.length) st2 sum2 evs hr hplan
          constructor
          · have h1 := hacc.1
            have h2 := hacc.2.1
            simp [initialSummary] at h1 h2
            omega
          · intro n
            rw [hacc.2.2 n]
            simp only [execute_pipeline, hs, hr]
            rw [execCallsOf_append]
            simp [initialSummary, execCallsOf]

/-- Counterexample to C7 as stated: a run whose only task is skipped by its
skip condition completes with `summary["task_results"]` EMPTY — the skipped
task is recorded in the engine-level `task_results` but the summary carries no
entry for it, although the task is in the execution plan. -/
theorem c7_counterexample :
    topological_sort [{ name := "T", skip_on_condition := some "if_no_new_files" }] =
      .ok ["T"] ∧
    (execute_pipeline { wm := some 0, execs := fun _ => none } freshEngine
        [{ name := "T", skip_on_condition := some "if_no_new_files" }]).1 =
      .completed true { total_tasks := 1, successful_tasks := 0, failed_tasks := 0,
                        skipped_tasks := 1, task_results := [], failed_tasks_list := [] } ∧
    (execute_pipeline { wm := some 0, execs := fun _ => none } freshEngine
        [{ name := "T", skip_on_condition := some "if_no_new_files" }]).2.1.task_results.lookup
      "T" = some ⟨.SKIPPED, 0⟩ :=
  ⟨rfl, rfl, rfl⟩

/-- Witness for C7 (amended) on a one-task run that executes successfully. -/
theorem c7_completed_summary_witness :
    ((execute_pipeline { wm := none, execs := execsOf [("T", fun _ => .ok 5)] } freshEngine
        [{ name := "T" }]).1 = .completed true
          { total_tasks := 1, successful_tasks := 1, failed_tasks := 0, skipped_tasks := 0,
            task_results := [("T", ⟨.SUCCESS, 1⟩)], failed_tasks_list := [] }) ∧
    (1 + 0 + 0 = 1) ∧
    (((([("T", (⟨.SUCCESS, 1⟩ : TaskResult))] : List (String × TaskResult)).lookup
        "T").isSome) ↔
      ∃ a, ("T", a) ∈ execCallsOf (execute_pipeline
        { wm := none, execs := execsOf [("T", fun _ => .ok 5)] } freshEngine
        [{ name := "T" }]).2.2) :=
  by
  have h := c7_completed_summary { wm := none, execs := execsOf [("T", fun _ => .ok 5)] }
    freshEngine [{ name := "T" }] true
    { total_tasks := 1, successful_tasks := 1, failed_tasks := 0, skipped_tasks := 0,
      task_results := [("T", ⟨.SUCCESS, 1⟩)], failed_tasks_list := [] } rfl
  exact ⟨rfl, h.1, h.2 "T"⟩

/-! ### Cross-run state (C6) -/

theorem depsSatisfied_congr : ∀ (ds : List String) (st₁ st₂ : EngineSt),
    (∀ d ∈ ds, st₁.task_results.lookup d = st₂.task_results.lookup d) →
    depsSatisfied st₁ ds = depsSatisfied st₂ ds := by
  intro ds
  induction ds with
  | nil => intro _ _ _; rfl
  | cons d rest ih =>
      intro st₁ st₂ h
      rw [show depsSatisfied st₁ (d :: rest) =
            ((match st₁.task_results.lookup d with
              | some r => r.status == TStatus.SUCCESS
              | none => false) && depsSatisfied st₁ rest) from by
          simp [depsSatisfied, List.all_cons],
        show depsSatisfied st₂ (d :: rest) =
            ((match st₂.task_results.lookup d with
              | some r => r.status == TStatus.SUCCESS
              | none => false) && depsSatisfied st₂ rest) from by
          simp [depsSatisfied, List.all_cons]]
      rw [h d (List.mem_cons_self _ _),
        ih st₁ st₂ (fun x hx => h x (List.mem_cons_of_mem _ hx))]

theorem processTask_congr (env : Env) (st₁ st₂ : EngineSt) (sum : Summary) (t : Task)
    (htr : ∀ d ∈ t.depends_on, st₁.task_results.lookup d = st₂.task_results.lookup d)
    (heo : st₁.execution_order.lookup t.name = st₂.execution_order.lookup t.name) :
    ∃ u, processTask env st₁ sum t =
          ((processTask env st₂ sum t).1, applyUpd st₁ u,
           (processTask env st₂ sum t).2.2.1, (processTask env st₂ sum t).2.2.2) ∧
         (processTask env st₂ sum t).2.1 = applyUpd st₂ u := by
  have hds := depsSatisfied_congr t.depends_on st₁ st₂ htr
  by_cases h1 : should_skip_task env t.skip_on_condition
  · exact ⟨some (t.name, ⟨.SKIPPED, 0⟩),
      by simp [processTask, h1, applyUpd], by simp [processTask, h1, applyUpd]⟩
  · by_cases h2 : depsSatisfied st₂ t.depends_on
    · have h2' : depsSatisfied st₁ t.depends_on := by rw [hds]; exact h2
      cases h3 : env.execs t.name with
      | none =>
          exact ⟨none, by simp [processTask, h1, h2', h2, h3, applyUpd],
            by simp [processTask, h1, h2, h3, applyUpd]⟩
      | some ex =>
          have hord : (st₁.execution_order.lookup t.name).getD 0 =
              (st₂.execution_order.lookup t.name).getD 0 := by rw [heo]
          refine ⟨some (t.name,
            (execute_task_with_retries t.name
              ((st₂.execution_order.lookup t.name).getD 0) ex t.max_retries).2.1), ?_, ?_⟩
          · simp only [processTask, h1, h2', h2, h3, hord, applyUpd, if_true, if_false,
              eq_self_iff_true, not_true, ite_false, ite_true]
            split_ifs <;> simp_all [applyUpd]
          · simp only [processTask, h1, h2, h3, applyUpd]
            split_ifs <;> simp_all [applyUpd]
    · have h2' : ¬ depsSatisfied st₁ t.depends_on := by rw [hds]; exact h2
      by_cases h4 : t.critical
      · exact ⟨none, by simp [processTask, h1, h2', h2, h4, applyUpd],
          by simp [processTask, h1, h2, h4, applyUpd]⟩
      · exact ⟨none, by simp [processTask, h1, h2', h2, h4, applyUpd],
          by simp [processTask, h1, h2, h4, applyUpd]⟩

theorem lookup_applyUpd_congr {st₁ st₂ : EngineSt} (u : Option (String × TaskResult))
    (d : String) (h : st₁.task_results.lookup d = st₂.task_results.lookup d) :
    (applyUpd st₁ u).task_results.lookup d = (applyUpd st₂ u).task_results.lookup d := by
  cases u with
  | none => exact h
  | some p =>
      by_cases hd : d == p.1 <;> simp [applyUpd, List.lookup, hd, h]

theorem eo_applyUpd (st : EngineSt) (u : Option (String × TaskResult)) :
    (applyUpd st u).execution_order = st.execution_order := by
  cases u <;> rfl

theorem lookup_append_left {β : Type} {l₁ : List (String × β)} {n : String} {v : β}
    (h : l₁.lookup n = some v) (l₂ : List (String × β)) :
    (l₁ ++ l₂).lookup n = some v := by
  induction l₁ with
  | nil => simp [List.lookup] at h
  | cons p rest ih =>
      by_cases hb : n == p.1
      · simpa [List.lookup, hb] using h
      · simp only [List.cons_append, List.lookup, hb] at h ⊢
        exact ih h

theorem mem_fst_lookup_isSome {β : Type} {l : List (String × β)} {n : String}
    (h : n ∈ l.map Prod.fst) : (l.lookup n).isSome := by
  induction l with
  | nil => simp at h
  | cons p rest ih =>
      by_cases hb : n == p.1
      · simp [List.lookup, hb]
      · simp only [List.map_cons, List.mem_cons] at h
        rcases h with h1 | h1
        · exact absurd (by simp [h1]) hb
        · simp only [List.lookup, hb]
          exact ih h1

theorem runLoop_congr (env : Env) (tasks : List Task) :
    ∀ (plan : List String) (st₁ st₂ : EngineSt) (sum : Summary),
      (∀ d ∈ depNames tasks, st₁.task_results.lookup d = st₂.task_results.lookup d) →
      (∀ n ∈ plan, st₁.execution_order.lookup n = st₂.execution_order.lookup n) →
      (runLoop env tasks plan st₁ sum).1 = (runLoop env tasks plan st₂ sum).1 ∧
      (runLoop env tasks plan st₁ sum).2.2.1 = (runLoop env tasks plan st₂ sum).2.2.1 ∧
      (runLoop env tasks plan st₁ sum).2.2.2 = (runLoop env tasks plan st₂ sum).2.2.2 := by
  intro plan
  induction plan with
  | nil => intro st₁ st₂ sum _ _; exact ⟨rfl, rfl, rfl⟩
  | cons n rest ih =>
      intro st₁ st₂ sum htr heo
      cases hg : getTask tasks n with
      | none =>
          have := ih st₁ st₂ sum htr (fun m hm => heo m (List.mem_cons_of_mem _ hm))
          simpa [runLoop, hg] using this
      | some t =>
          have htmem : t ∈ tasks := List.mem_of_find?_eq_some hg
          have htn : t.name = n := by
            have := List.find?_some hg
            simpa using this
          have hdeps : ∀ d ∈ t.depends_on, d ∈ depNames tasks := by
            intro d hd
            simp only [depNames, List.mem_flatten, List.mem_map]
            exact ⟨t.depends_on, ⟨t, htmem, rfl⟩, hd⟩
          obtain ⟨u, hpc₁, hpc₂⟩ := processTask_congr env st₁ st₂ sum t
            (fun d hd => htr d (hdeps d hd))
            (by rw [htn]; exact heo n (List.mem_cons_self _ _))
          rcases hp₂ : processTask env st₂ sum t with ⟨ab, stB, sumB, evsB⟩
          rw [hp₂] at hpc₁ hpc₂
          dsimp only at hpc₁ hpc₂
          cases ab with
          | some msg =>
              simp [runLoop, hg, hpc₁, hp₂]
          | none =>
              have hrec := ih (applyUpd st₁ u) (applyUpd st₂ u) sumB
                (fun d hd => lookup_applyUpd_congr u d (htr d hd))
                (fun m hm => by
                  rw [eo_applyUpd, eo_applyUpd]
                  exact heo m (List.mem_cons_of_mem _ hm))
              rw [hpc₂] at hp₂
              rw [show runLoop env tasks (n :: rest) st₁ sum =
                    (match getTask tasks n with
                    | none => runLoop env tasks rest st₁ sum
                    | some t =>
                      match processTask env st₁ sum t with
                      | (some msg, st1, sum1, evs) => (some msg, st1, sum1, evs)
                      | (none, st1, sum1, evs) =>
                        let r := runLoop env tasks rest st1 sum1
                        (r.1, r.2.1, r.2.2.1, evs ++ r.2.2.2)) from rfl,
                  show runLoop env tasks (n :: rest) st₂ sum =
                    (match getTask tasks n with
                    | none => runLoop env tasks rest st₂ sum
                    | some t =>
                      match processTask env st₂ sum t with
                      | (some msg, st1, sum1, evs) => (some msg, st1, sum1, evs)
                      | (none, st1, sum1, evs) =>
                        let r := runLoop env tasks rest st1 sum1
                        (r.1, r.2.1, r.2.2.1, evs ++ r.2.2.2)) from rfl,
                  hg]
              dsimp only
              rw [hpc₁, hp₂]
              dsimp only
              exact ⟨hrec.1, hrec.2.1, by rw [hrec.2.2]⟩

/-- C6 (corrected): a later run on a used engine matches a run on a fresh
engine PROVIDED no dependency name of the later run's task set carries a
recorded status left in the engine's persistent `task_results`; in general the
later run's dependency check DOES read statuses recorded by earlier runs
(see `c6_counterexample`). -/
theorem c6_run_isolation (env : Env) (st : EngineSt) (tasks : List Task)
    (h : ∀ d ∈ depNames tasks, st.task_results.lookup d = none) :
    (execute_pipeline env st tasks).1 = (execute_pipeline env freshEngine tasks).1 ∧
    (execute_pipeline env st tasks).2.2 = (execute_pipeline env freshEngine tasks).2.2 := by
  cases hs : topological_sort tasks with
  | error e => simp [execute_pipeline, hs]
  | ok plan =>
      have heo : ∀ n ∈ plan,
          (afterSortState st plan).execution_order.lookup n =
            (afterSortState freshEngine plan).execution_order.lookup n := by
        intro n hn
        have hcov : ((planOrders plan).lookup n).isSome := by
          have hfst : (planOrders plan).map Prod.fst = plan := by
            simp [planOrders, List.map_map, Function.comp_def, List.enum_map_snd]
          exact mem_fst_lookup_isSome (by rw [hfst]; exact hn)
        obtain ⟨v, hv⟩ := Option.isSome_iff_exists.mp hcov
        have h₁ : (afterSortState st plan).execution_order.lookup n = some v := by
          simp only [afterSortState]
          exact lookup_append_left hv st.execution_order
        have h₂ : (afterSortState freshEngine plan).execution_order.lookup n = some v := by
          simp only [afterSortState, freshEngine]
          exact lookup_append_left hv []
        rw [h₁, h₂]
      have htr : ∀ d ∈ depNames tasks,
          (afterSortState st plan).task_results.lookup d =
            (afterSortState freshEngine plan).task_results.lookup d := by
        intro d hd
        show st.task_results.lookup d = List.lookup d []
        rw [h d hd]
        rfl
      have hloop := runLoop_congr env tasks plan (afterSortState st plan)
        (afterSortState freshEngine plan) (initialSummary plan.length) htr heo
      rcases hr₁ : runLoop env tasks plan (afterSortState st plan) (initialSummary plan.length)
        with ⟨ab₁, stA, sumA, evsA⟩
      rcases hr₂ : runLoop env tasks plan (afterSortState freshEngine plan)
        (initialSummary plan.length) with ⟨ab₂, stB, sumB, evsB⟩
      rw [hr₁, hr₂] at hloop
      dsimp only at hloop
      obtain ⟨hab, hsum, hevs⟩ := hloop
      subst hab
      subst hsum
      subst hevs
      cases ab₁ with
      | some msg => simp [execute_pipeline, hs, hr₁, hr₂]
      | none => simp [execute_pipeline, hs, hr₁, hr₂]

/-- Counterexample to C6 as stated: run 1 records `X = SUCCESS` on the engine;
run 2 (same engine) fails `X` by missing executor, which records nothing, so
`Y`'s dependency check still sees run 1's `SUCCESS` and `Y` executes — while
on a fresh engine `Y` is blocked and the run aborts with
`CriticalTaskFailure`. -/
theorem c6_counterexample :
    (execute_pipeline { wm := none, execs := execsOf [("Y", fun _ => .ok 2)] }
        (execute_pipeline { wm := none, execs := execsOf [("X", fun _ => .ok 1)] }
          freshEngine [{ name := "X" }]).2.1
        [{ name := "X", critical := false }, { name := "Y", depends_on := ["X"] }]).1 =
      .completed false { total_tasks := 2, successful_tasks := 1, failed_tasks := 1,
                         skipped_tasks := 0, task_results := [("Y", ⟨.SUCCESS, 1⟩)],
                         failed_tasks_list := ["X"] } ∧
    (execute_pipeline { wm := none, execs := execsOf [("Y", fun _ => .ok 2)] }
        freshEngine
        [{ name := "X", critical := false }, { name := "Y", depends_on := ["X"] }]).1 =
      .critical "Critical task Y blocked by failed dependency" :=
  ⟨rfl, rfl⟩

/-- Witness for C6 (amended): an engine holding a stale result for a name that
is no dependency of the new task set runs exactly like a fresh engine. -/
theorem c6_run_isolation_witness :
    ((execute_pipeline { wm := none, execs := execsOf [("T", fun _ => .ok 3)] }
        { execution_order := [("Z", 9)], task_results := [("Z", ⟨.SUCCESS, 1⟩)] }
        [{ name := "T" }]).1 =
      (execute_pipeline { wm := none, execs := execsOf [("T", fun _ => .ok 3)] }
        freshEngine [{ name := "T" }]).1) ∧
    ((execute_pipeline { wm := none, execs := execsOf [("T", fun _ => .ok 3)] }
        { execution_order := [("Z", 9)], task_results := [("Z", ⟨.SUCCESS, 1⟩)] }
        [{ name := "T" }]).2.2 =
      (execute_pipeline { wm := none, execs := execsOf [("T", fun _ => .ok 3)] }
        freshEngine [{ name := "T" }]).2.2) :=
  c6_run_isolation _ _ _ (by intro d hd; simp [depNames] at hd)

/-! ### The skip/fail/blocked boundary example (C2) -/

theorem runLoop_cons_none (env : Env) (tasks : List Task) (n : String) (rest : List String)
    (st : EngineSt) (sum : Summary) (t : Task) (hg : getTask tasks n = some t)
    (st1 : EngineSt) (sum1 : Summary) (evs : List Event)
    (hp : processTask env st sum t = (none, st1, sum1, evs)) :
    runLoop env tasks (n :: rest) st sum =
      ((runLoop env tasks rest st1 sum1).1, (runLoop env tasks rest st1 sum1).2.1,
       (runLoop env tasks rest st1 sum1).2.2.1,
       evs ++ (runLoop env tasks rest st1 sum1).2.2.2) := by
  rw [show runLoop env tasks (n :: rest) st sum =
      (match getTask tasks n with
       | none => runLoop env tasks rest st sum
       | some t =>
         match processTask env st sum t with
         | (some msg, st1, sum1, evs) => (some msg, st1, sum1, evs)
         | (none, st1, sum1, evs) =>
           let r := runLoop env tasks rest st1 sum1
           (r.1, r.2.1, r.2.2.1, evs ++ r.2.2.2)) from rfl, hg]
  dsimp only
  rw [hp]

theorem runLoop_cons_abort (env : Env) (tasks : List Task) (n : String) (rest : List String)
    (st : EngineSt) (sum : Summary) (t : Task) (hg : getTask tasks n = some t)
    (msg : String) (st1 : EngineSt) (sum1 : Summary) (evs : List Event)
    (hp : processTask env st sum t = (some msg, st1, sum1, evs)) :
    runLoop env tasks (n :: rest) st sum = (some msg, st1, sum1, evs) := by
  rw [show runLoop env tasks (n :: rest) st sum =
      (match getTask tasks n with
       | none => runLoop env tasks rest st sum
       | some t =>
         match processTask env st sum t with
         | (some msg, st1, sum1, evs) => (some msg, st1, sum1, evs)
         | (none, st1, sum1, evs) =>
           let r := runLoop env tasks rest st1 sum1
           (r.1, r.2.1, r.2.2.1, evs ++ r.2.2.2)) from rfl, hg]
  dsimp only
  rw [hp]

theorem processTask_exec (env : Env) (st : EngineSt) (sum : Summary) (t : Task)
    (ex : Nat → ExecOutcome)
    (h1 : should_skip_task env t.skip_on_condition = false)
    (h2 : depsSatisfied st t.depends_on = true)
    (h3 : env.execs t.name = some ex)
    (b : Bool) (res : TaskResult) (evs : List Event)
    (hr : execute_task_with_retries t.name ((st.execution_order.lookup t.name).getD 0) ex
        t.max_retries = (b, res, evs)) :
    processTask env st sum t =
      (if b then
        (none, { st with task_results := (t.name, res) :: st.task_results },
         { sum with successful_tasks := sum.successful_tasks + 1,
                    task_results := sum.task_results ++ [(t.name, res)] }, evs)
       else if t.critical then
        (some (s!"Critical task {t.name} failed"),
         { st with task_results := (t.name, res) :: st.task_results },
         { sum with failed_tasks := sum.failed_tasks + 1,
                    task_results := sum.task_results ++ [(t.name, res)],
                    failed_tasks_list := sum.failed_tasks_list ++ [t.name] }, evs)
       else
        (none, { st with task_results := (t.name, res) :: st.task_results },
         { sum with failed_tasks := sum.failed_tasks + 1,
                    task_results := sum.task_results ++ [(t.name, res)],
                    failed_tasks_list := sum.failed_tasks_list ++ [t.name] }, evs)) := by
  simp only [processTask, h1, h2, h3, Bool.false_eq_true, not_false_eq_true, if_false,
    if_true, Bool.true_eq_false, not_true_eq_false, ite_true, ite_false]
  rw [hr]

/-- C2 (amended): in the worked three-task boundary example (A critical with
no deps, B non-critical depending on A with `max_retries = M`, C critical
depending on B), with A's executor succeeding and B's raising on every
attempt, the scheduler raises `CriticalTaskFailure` at C (blocked, critical)
and `execute_pipeline` returns NO summary; at the abort the in-flight summary
has successful=1, failed=2 (C itself is counted failed and appended to the
failed list before the raise), skipped=0, and C is recorded in no status
anywhere (Pending): neither the engine's `task_results` (shown in the final
engine state) nor the summary's carries an entry for C. -/
theorem c2_boundary_example (M rows : Nat) :
    execute_pipeline (c2Env rows) freshEngine (c2Tasks M) =
      (.critical "Critical task C blocked by failed dependency",
       { execution_order := [("A", 1), ("B", 2), ("C", 3)],
         task_results := [("B", ⟨.FAILED, 1 + M⟩), ("A", ⟨.SUCCESS, 1⟩)] },
       [.taskStart "A" 1 1, .execCall "A" 1, .taskSuccess "A" rows] ++
         failEvents "B" 2 1 M) ∧
    (runLoop (c2Env rows) (c2Tasks M) ["A", "B", "C"]
        (afterSortState freshEngine ["A", "B", "C"]) (initialSummary 3)).2.2.1 =
      { total_tasks := 3, successful_tasks := 1, failed_tasks := 2, skipped_tasks := 0,
        task_results := [("A", ⟨.SUCCESS, 1⟩), ("B", ⟨.FAILED, 1 + M⟩)],
        failed_tasks_list := ["B", "C"] } := by
  have hsort : topological_sort (c2Tasks M) = .ok ["A", "B", "C"] := rfl
  have hA : processTask (c2Env rows) (afterSortState freshEngine ["A", "B", "C"])
      (initialSummary 3) { name := "A" } =
      (none,
       { execution_order := [("A", 1), ("B", 2), ("C", 3)],
         task_results := [("A", ⟨.SUCCESS, 1⟩)] },
       { total_tasks := 3, successful_tasks := 1, failed_tasks := 0, skipped_tasks := 0,
         task_results := [("A", ⟨.SUCCESS, 1⟩)], failed_tasks_list := [] },
       [.taskStart "A" 1 1, .execCall "A" 1, .taskSuccess "A" rows]) := rfl
  have hBret : execute_task_with_retries "B"
      ((({ execution_order := [("A", 1), ("B", 2), ("C", 3)],
           task_results := [("A", ⟨.SUCCESS, 1⟩)] } : EngineSt).execution_order.lookup
        "B").getD 0) (fun _ => ExecOutcome.err) M =
      (false, ⟨.FAILED, 1 + M⟩, failEvents "B" 2 1 M) := by
    have h := retryGo_fail_eq "B" 2 (fun _ => ExecOutcome.err) (fun _ => rfl) M 1
    exact h
  have hB : processTask (c2Env rows)
      { execution_order := [("A", 1), ("B", 2), ("C", 3)],
        task_results := [("A", ⟨.SUCCESS, 1⟩)] }
      { total_tasks := 3, successful_tasks := 1, failed_tasks := 0, skipped_tasks := 0,
        task_results := [("A", ⟨.SUCCESS, 1⟩)], failed_tasks_list := [] }
      { name := "B", depends_on := ["A"], critical := false, max_retries := M } =
      (none,
       { execution_order := [("A", 1), ("B", 2), ("C", 3)],
         task_results := [("B", ⟨.FAILED, 1 + M⟩), ("A", ⟨.SUCCESS, 1⟩)] },
       { total_tasks := 3, successful_tasks := 1, failed_tasks := 1, skipped_tasks := 0,
         task_results := [("A", ⟨.SUCCESS, 1⟩), ("B", ⟨.FAILED, 1 + M⟩)],
         failed_tasks_list := ["B"] },
       failEvents "B" 2 1 M) := by
    rw [processTask_exec (c2Env rows)
      { execution_order := [("A", 1), ("B", 2), ("C", 3)],
        task_results := [("A", ⟨.SUCCESS, 1⟩)] }
      { total_tasks := 3, successful_tasks := 1, failed_tasks := 0, skipped_tasks := 0,
        task_results := [("A", ⟨.SUCCESS, 1⟩)], failed_tasks_list := [] }
      { name := "B", depends_on := ["A"], critical := false, max_retries := M }
      (fun _ => ExecOutcome.err) rfl rfl rfl false
      ⟨.FAILED, 1 + M⟩ (failEvents "B" 2 1 M) hBret]
    rfl
  have hC : processTask (c2Env rows)
      { execution_order := [("A", 1), ("B", 2), ("C", 3)],
        task_results := [("B", ⟨.FAILED, 1 + M⟩), ("A", ⟨.SUCCESS, 1⟩)] }
      { total_tasks := 3, successful_tasks := 1, failed_tasks := 1, skipped_tasks := 0,
        task_results := [("A", ⟨.SUCCESS, 1⟩), ("B", ⟨.FAILED, 1 + M⟩)],
        failed_tasks_list := ["B"] }
      { name := "C", depends_on := ["B"] } =
      (some "Critical task C blocked by failed dependency",
       { execution_order := [("A", 1), ("B", 2), ("C", 3)],
         task_results := [("B", ⟨.FAILED, 1 + M⟩), ("A", ⟨.SUCCESS, 1⟩)] },
       { total_tasks := 3, successful_tasks := 1, failed_tasks := 2, skipped_tasks := 0,
         task_results := [("A", ⟨.SUCCESS, 1⟩), ("B", ⟨.FAILED, 1 + M⟩)],
         failed_tasks_list := ["B", "C"] },
       []) := rfl
  have hloop : runLoop (c2Env rows) (c2Tasks M) ["A", "B", "C"]
      (afterSortState freshEngine ["A", "B", "C"]) (initialSummary 3) =
      (some "Critical task C blocked by failed dependency",
       { execution_order := [("A", 1), ("B", 2), ("C", 3)],
         task_results := [("B", ⟨.FAILED, 1 + M⟩), ("A", ⟨.SUCCESS, 1⟩)] },
       { total_tasks := 3, successful_tasks := 1, failed_tasks := 2, skipped_tasks := 0,
         task_results := [("A", ⟨.SUCCESS, 1⟩), ("B", ⟨.FAILED, 1 + M⟩)],
         failed_tasks_list := ["B", "C"] },
       [.taskStart "A" 1 1, .execCall "A" 1, .taskSuccess "A" rows] ++
         (failEvents "B" 2 1 M ++ [])) := by
    have hg1 : getTask (c2Tasks M) "A" = some { name := "A" } := rfl
    have hg2 : getTask (c2Tasks M) "B" =
        some { name := "B", depends_on := ["A"], critical := false, max_retries := M } := rfl
    have hg3 : getTask (c2Tasks M) "C" = some { name := "C", depends_on := ["B"] } := rfl
    rw [runLoop_cons_none _ _ _ _ _ _ _ hg1 _ _ _ hA,
      runLoop_cons_none _ _ _ _ _ _ _ hg2 _ _ _ hB,
      runLoop_cons_abort _ _ _ _ _ _ _ hg3 _ _ _ _ hC]
  constructor
  · unfold execute_pipeline
    rw [hsort]
    dsimp only
    rw [show initialSummary (["A", "B", "C"] : List String).length = initialSummary 3 from rfl]
    rw [hloop]
    simp
  · rw [hloop]

/-- Counterexample to C2 as stated: in the boundary example (at `M = 1`,
`rows = 10`) the run aborts at C with `CriticalTaskFailure` — so no summary is
reported at all — and the in-flight summary at the abort counts `failed = 2`
(B and C), not `failed = 1`: C is appended to the failed count and list before
the raise. -/
theorem c2_counterexample :
    (execute_pipeline (c2Env 10) freshEngine (c2Tasks 1)).1 =
      .critical "Critical task C blocked by failed dependency" ∧
    (runLoop (c2Env 10) (c2Tasks 1) ["A", "B", "C"]
        (afterSortState freshEngine ["A", "B", "C"]) (initialSummary 3)).2.2.1.failed_tasks
      = 2 ∧
    (runLoop (c2Env 10) (c2Tasks 1) ["A", "B", "C"]
        (afterSortState freshEngine ["A", "B", "C"]) (initialSummary 3)).2.2.1.failed_tasks_list
      = ["B", "C"] :=
  ⟨rfl, rfl, rfl⟩

/-! ### Graph validation and ordering (C4, C5, C8) -/

theorem getTask_mem {tasks : List Task} {n : String} {t : Task}
    (h : getTask tasks n = some t) : t ∈ tasks ∧ t.name = n := by
  refine ⟨List.mem_of_find?_eq_some h, ?_⟩
  have := List.find?_some h
  simpa using this

theorem edge_elim {tasks : List Task} {v w : String} (h : Edge tasks v w) :
    ∃ t ∈ tasks, t.name = v ∧ w ∈ t.depends_on := by
  unfold Edge deps at h
  cases hg : getTask tasks v with
  | none => rw [hg] at h; simp at h
  | some t =>
      rw [hg] at h
      obtain ⟨hmem, hname⟩ := getTask_mem hg
      exact ⟨t, hmem, hname, h⟩

theorem edge_source_mem_names {tasks : List Task} {v w : String} (h : Edge tasks v w) :
    v ∈ allNames tasks := by
  obtain ⟨t, hmem, hname, _⟩ := edge_elim h
  exact hname ▸ List.mem_map_of_mem (fun t => t.name) hmem

theorem deps_subset_universe {tasks : List Task} {c d : String}
    (h : d ∈ deps tasks c) : d ∈ universeL tasks := by
  obtain ⟨t, hmem, _, hd⟩ := edge_elim (h : Edge tasks c d)
  refine List.mem_append.mpr (Or.inr ?_)
  simp only [List.mem_flatten, List.mem_map]
  exact ⟨t.depends_on, ⟨t, hmem, rfl⟩, hd⟩

theorem names_subset_universe {tasks : List Task} {n : String}
    (h : n ∈ allNames tasks) : n ∈ universeL tasks :=
  List.mem_append.mpr (Or.inl h)

theorem transGen_rank {tasks : List Task} (f : String → Nat)
    (hf : ∀ v w, Edge tasks v w → f w < f v) :
    ∀ a b, Relation.TransGen (Edge tasks) a b → f b < f a := by
  intro a b h
  induction h with
  | single he => exact hf _ _ he
  | tail _ he ih => exact lt_trans (hf _ _ he) ih

theorem acyclic_of_rank {tasks : List Task} (f : String → Nat)
    (hf : ∀ v w, Edge tasks v w → f w < f v) : Acyclic tasks := by
  intro v hv
  exact absurd (transGen_rank f hf v v hv) (lt_irrefl _)

theorem acyclic_of_no_deps {tasks : List Task}
    (h : ∀ t ∈ tasks, t.depends_on = []) : Acyclic tasks := by
  refine acyclic_of_rank (fun _ => 0) ?_
  intro v w he
  obtain ⟨t, hmem, _, hd⟩ := edge_elim he
  rw [h t hmem] at hd
  simp at hd

theorem mU_lt_dfsFuel (tasks : List Task) (vis : List String) :
    mU tasks vis < dfsFuel tasks := by
  unfold mU dfsFuel
  calc ((universeL tasks).toFinset \ vis.toFinset).card
      ≤ (universeL tasks).toFinset.card := Finset.card_le_card (Finset.sdiff_subset)
    _ ≤ (universeL tasks).length := List.toFinset_card_le _
    _ < (universeL tasks).length + 1 := Nat.lt_succ_self _

theorem mU_insert_lt {tasks : List Task} {vis : List String} {t : String}
    (ht : t ∈ universeL tasks) (hvis : t ∉ vis) : mU tasks (t :: vis) < mU tasks vis := by
  unfold mU
  apply Finset.card_lt_card
  constructor
  · intro x hx
    rw [Finset.mem_sdiff] at hx ⊢
    refine ⟨hx.1, fun hc => hx.2 ?_⟩
    simp only [List.toFinset_cons, Finset.mem_insert]
    exact Or.inr hc
  · intro hsub
    have : t ∈ (universeL tasks).toFinset \ vis.toFinset := by
      rw [Finset.mem_sdiff]
      exact ⟨List.mem_toFinset.mpr ht, fun hc => hvis (List.mem_toFinset.mp hc)⟩
    have := hsub this
    rw [Finset.mem_sdiff] at this
    exact this.2 (by simp)

theorem mU_mono {tasks : List Task} {vis vis' : List String}
    (h : ∀ x ∈ vis, x ∈ vis') : mU tasks vis' ≤ mU tasks vis := by
  unfold mU
  apply Finset.card_le_card
  intro x hx
  rw [Finset.mem_sdiff] at hx ⊢
  exact ⟨hx.1, fun hc => hx.2 (List.mem_toFinset.mpr (h x (List.mem_toFinset.mp hc)))⟩

theorem black_reach {tasks : List Task} {vis rs : List String}
    (hcl : ∀ v, v ∈ vis → v ∉ rs → ∀ w, Edge tasks v w → w ∈ vis ∧ w ∉ rs)
    {d x : String} (hd : d ∈ vis ∧ d ∉ rs)
    (hr : Relation.ReflTransGen (Edge tasks) d x) : x ∈ vis ∧ x ∉ rs := by
  induction hr with
  | refl => exact hd
  | tail _ he ih => exact hcl _ ih.1 ih.2 _ he

theorem exists_cycle_of_succ (tasks : List Task) (S : Finset String) (hne : S.Nonempty)
    (h : ∀ v ∈ S, ∃ w ∈ S, Edge tasks v w) :
    ∃ x, Relation.TransGen (Edge tasks) x x := by
  classical
  obtain ⟨v₀, hv₀⟩ := hne
  have hch : ∀ v, ∃ w, v ∈ S → (w ∈ S ∧ Edge tasks v w) := by
    intro v
    by_cases hv : v ∈ S
    · obtain ⟨w, hw, he⟩ := h v hv
      exact ⟨w, fun _ => ⟨hw, he⟩⟩
    · exact ⟨v, fun hc => absurd hc hv⟩
  choose g hg using hch
  have hseqS : ∀ i : Nat, g^[i] v₀ ∈ S := by
    intro i
    induction i with
    | zero => exact hv₀
    | succ i ih =>
        rw [Function.iterate_succ_apply']
        exact (hg _ ih).1
  have hedge : ∀ i : Nat, Edge tasks (g^[i] v₀) (g^[i + 1] v₀) := by
    intro i
    rw [Function.iterate_succ_apply']
    exact (hg _ (hseqS i)).2
  have hchain : ∀ i k : Nat, 0 < k →
      Relation.TransGen (Edge tasks) (g^[i] v₀) (g^[i + k] v₀) := by
    intro i k
    induction k with
    | zero => intro hk; exact absurd hk (lt_irrefl 0)
    | succ k ih =>
        intro _
        cases Nat.eq_zero_or_pos k with
        | inl hk0 => subst hk0; exact Relation.TransGen.single (hedge i)
        | inr hkpos =>
            have := ih hkpos
            have hstep := hedge (i + k)
            exact Relation.TransGen.tail this hstep
  have hmaps : ∀ i ∈ Finset.range (S.card + 1), g^[i] v₀ ∈ S := fun i _ => hseqS i
  have hcard : S.card < (Finset.range (S.card + 1)).card := by simp
  obtain ⟨i, hi, j, hj, hij, heq⟩ :=
    Finset.exists_ne_map_eq_of_card_lt_of_maps_to hcard hmaps
  rcases Nat.lt_or_ge i j with hlt | hge
  · refine ⟨g^[i] v₀, ?_⟩
    have := hchain i (j - i) (by omega)
    rw [show i + (j - i) = j from by omega] at this
    rwa [← heq] at this
  · have hlt : j < i := by
      cases Nat.eq_or_lt_of_le hge with
      | inl he => exact absurd (by omega : i = j) hij
      | inr h => exact h
    refine ⟨g^[j] v₀, ?_⟩
    have := hchain j (i - j) (by omega)
    rw [show j + (i - j) = i from by omega] at this
    rwa [heq] at this

theorem dfs_node_main (tasks : List Task) : ∀ fuel : Nat,
    ∀ (t : String) (vis rs : List String),
      (∀ u ∈ rs, u ∈ vis) → t ∉ vis → t ∈ universeL tasks →
      mU tasks vis < fuel → BlackClosed tasks vis rs →
      (∀ u ∈ rs, Relation.ReflTransGen (Edge tasks) u t) →
      ((hasCycleNode tasks fuel t vis rs).1 = true →
        ∃ x, Relation.TransGen (Edge tasks) x x ∧
          Relation.ReflTransGen (Edge tasks) t x) ∧
      ((hasCycleNode tasks fuel t vis rs).1 = false →
        (hasCycleNode tasks fuel t vis rs).2.2 = rs ∧
        (∀ x ∈ vis, x ∈ (hasCycleNode tasks fuel t vis rs).2.1) ∧
        t ∈ (hasCycleNode tasks fuel t vis rs).2.1 ∧
        BlackClosed tasks (hasCycleNode tasks fuel t vis rs).2.1 rs) := by
  intro fuel
  induction fuel with
  | zero =>
      intro t vis rs _ _ _ hm _ _
      exact absurd hm (by omega)
  | succ f ih =>
      have hdeps : ∀ (ds : List String) (c : String) (vis rs : List String),
          (∀ u ∈ rs, u ∈ vis) →
          (∀ d ∈ ds, Edge tasks c d) →
          mU tasks vis < f →
          BlackClosed tasks vis rs →
          (∀ u ∈ rs, Relation.ReflTransGen (Edge tasks) u c) →
          ((hasCycleDeps (fun d v r => hasCycleNode tasks f d v r) ds vis rs).1 = true →
            ∃ x, Relation.TransGen (Edge tasks) x x ∧
              Relation.ReflTransGen (Edge tasks) c x) ∧
          ((hasCycleDeps (fun d v r => hasCycleNode tasks f d v r) ds vis rs).1 = false →
            (hasCycleDeps (fun d v r => hasCycleNode tasks f d v r) ds vis rs).2.2 = rs ∧
            (∀ x ∈ vis,
              x ∈ (hasCycleDeps (fun d v r => hasCycleNode tasks f d v r) ds vis rs).2.1) ∧
            BlackClosed tasks
              (hasCycleDeps (fun d v r => hasCycleNode tasks f d v r) ds vis rs).2.1 rs ∧
            (∀ d ∈ ds,
              d ∈ (hasCycleDeps (fun d v r => hasCycleNode tasks f d v r) ds vis rs).2.1 ∧
              d ∉ rs)) := by
        intro ds
        induction ds with
        | nil =>
            intro c vis rs _ _ _ hbc _
            refine ⟨fun hc => absurd hc (by simp [hasCycleDeps]), fun _ => ?_⟩
            exact ⟨rfl, fun x hx => hx, hbc, fun d hd => absurd hd (by simp)⟩
        | cons d ds ihds =>
            intro c vis rs hrsvis hds hm hbc hchain
            by_cases hdvis : d ∈ vis
            · by_cases hdrs : d ∈ rs
              · have hres : hasCycleDeps (fun d v r => hasCycleNode tasks f d v r)
                    (d :: ds) vis rs = (true, vis, rs) := by
                  simp [hasCycleDeps, hdvis, hdrs]
                rw [hres]
                refine ⟨fun _ => ?_, fun hc => absurd hc (by simp)⟩
                refine ⟨d, ?_, Relation.ReflTransGen.single
                  (hds d (List.mem_cons_self _ _))⟩
                exact Relation.TransGen.tail' (hchain d hdrs)
                  (hds d (List.mem_cons_self _ _))
              · have hres : hasCycleDeps (fun d v r => hasCycleNode tasks f d v r)
                    (d :: ds) vis rs =
                    hasCycleDeps (fun d v r => hasCycleNode tasks f d v r) ds vis rs := by
                  simp [hasCycleDeps, hdvis, hdrs]
                rw [hres]
                have hrec := ihds c vis rs hrsvis
                  (fun x hx => hds x (List.mem_cons_of_mem _ hx)) hm hbc hchain
                refine ⟨hrec.1, fun hfalse => ?_⟩
                obtain ⟨h1, h2, h3, h4⟩ := hrec.2 hfalse
                refine ⟨h1, h2, h3, ?_⟩
                intro x hx
                rcases List.mem_cons.mp hx with rfl | hx2
                · exact ⟨h2 x hdvis, hdrs⟩
                · exact h4 x hx2
            · have hnode := ih d vis rs hrsvis hdvis
                (deps_subset_universe (hds d (List.mem_cons_self _ _))) hm hbc
                (fun u hu => Relation.ReflTransGen.tail (hchain u hu)
                  (hds d (List.mem_cons_self _ _)))
              rcases hres : hasCycleNode tasks f d vis rs with ⟨b, v2, r2⟩
              rw [hres] at hnode
              cases b with
              | true =>
                  have hstep : hasCycleDeps (fun d v r => hasCycleNode tasks f d v r)
                      (d :: ds) vis rs = (true, v2, r2) := by
                    simp [hasCycleDeps, hdvis, hres]
                  rw [hstep]
                  refine ⟨fun _ => ?_, fun hc => absurd hc (by simp)⟩
                  obtain ⟨x, hcy, hrx⟩ := hnode.1 rfl
                  exact ⟨x, hcy, Relation.ReflTransGen.head
                    (hds d (List.mem_cons_self _ _)) hrx⟩
              | false =>
                  obtain ⟨hr2, hgrow, hdin, hbc2⟩ := hnode.2 rfl
                  dsimp only at hr2 hgrow hdin hbc2
                  subst hr2
                  have hstep : hasCycleDeps (fun d v r => hasCycleNode tasks f d v r)
                      (d :: ds) vis r2 =
                      hasCycleDeps (fun d v r => hasCycleNode tasks f d v r) ds v2 r2 := by
                    simp [hasCycleDeps, hdvis, hres]
                  rw [hstep]
                  have hrec := ihds c v2 r2 (fun u hu => hgrow u (hrsvis u hu))
                    (fun x hx => hds x (List.mem_cons_of_mem _ hx))
                    (lt_of_le_of_lt (mU_mono hgrow) hm) hbc2 hchain
                  refine ⟨hrec.1, fun hfalse => ?_⟩
                  obtain ⟨h1, h2, h3, h4⟩ := hrec.2 hfalse
                  refine ⟨h1, fun x hx => h2 x (hgrow x hx), h3, ?_⟩
                  intro x hx
                  rcases List.mem_cons.mp hx with rfl | hx2
                  · exact ⟨h2 x hdin, fun hc => hdvis (hrsvis x hc)⟩
                  · exact h4 x hx2
      intro t vis rs hrsvis htvis htU hm hbc hchain
      have hm1 : mU tasks (t :: vis) < f := by
        have := mU_insert_lt htU htvis
        omega
      have hbc1 : BlackClosed tasks (t :: vis) (t :: rs) := by
        constructor
        · intro v hv hvr w he
          have hv2 : v ∈ vis := by
            rcases List.mem_cons.mp hv with rfl | h
            · exact absurd (List.mem_cons_self _ _) hvr
            · exact h
          have hvr2 : v ∉ rs := fun hc => hvr (List.mem_cons_of_mem _ hc)
          obtain ⟨hw1, hw2⟩ := hbc.1 v hv2 hvr2 w he
          refine ⟨List.mem_cons_of_mem _ hw1, ?_⟩
          intro hc
          rcases List.mem_cons.mp hc with rfl | h
          · exact htvis hw1
          · exact hw2 h
        · intro v hv hvr hcy
          have hv2 : v ∈ vis := by
            rcases List.mem_cons.mp hv with rfl | h
            · exact absurd (List.mem_cons_self _ _) hvr
            · exact h
          exact hbc.2 v hv2 (fun hc => hvr (List.mem_cons_of_mem _ hc)) hcy
      have hsub1 : ∀ u ∈ t :: rs, u ∈ t :: vis := by
        intro u hu
        rcases List.mem_cons.mp hu with rfl | h
        · exact List.mem_cons_self _ _
        · exact List.mem_cons_of_mem _ (hrsvis u h)
      have hchain1 : ∀ u ∈ t :: rs, Relation.ReflTransGen (Edge tasks) u t := by
        intro u hu
        rcases List.mem_cons.mp hu with rfl | h
        · exact Relation.ReflTransGen.refl
        · exact hchain u h
      have hD := hdeps (deps tasks t) t (t :: vis) (t :: rs) hsub1
        (fun d hd => hd) hm1 hbc1 hchain1
      rcases hres : hasCycleDeps (fun d v r => hasCycleNode tasks f d v r)
        (deps tasks t) (t :: vis) (t :: rs) with ⟨b, v2, r2⟩
      rw [hres] at hD
      have hout : hasCycleNode tasks (f + 1) t vis rs =
          (match (b, v2, r2) with
           | (true, v, r) => (true, v, r)
           | (false, v, r) => (false, v, r.erase t)) := by
        rw [show hasCycleNode tasks (f + 1) t vis rs =
          (match hasCycleDeps (fun d v r => hasCycleNode tasks f d v r)
              (deps tasks t) (t :: vis) (t :: rs) with
           | (true, v, r) => (true, v, r)
           | (false, v, r) => (false, v, r.erase t)) from rfl, hres]
      cases b with
      | true =>
          rw [hout]
          exact ⟨fun _ => hD.1 rfl, fun hc => absurd hc (by simp)⟩
      | false =>
          obtain ⟨hr2, hgrow, hbc2, hdall⟩ := hD.2 rfl
          dsimp only at hr2 hgrow hbc2 hdall
          subst hr2
          rw [hout]
          refine ⟨fun hc => absurd hc (by simp), fun _ => ?_⟩
          have htnrs : t ∉ rs := fun hc => htvis (hrsvis t hc)
          refine ⟨by simp [List.erase_cons_head], ?_, ?_, ?_⟩
          · intro x hx
            exact hgrow x (List.mem_cons_of_mem _ hx)
          · exact hgrow t (List.mem_cons_self _ _)
          · constructor
            · intro v hv hvrs w he
              by_cases hvt : v = t
              · subst hvt
                have hw := hdall w he
                exact ⟨hw.1, fun hc => hw.2 (List.mem_cons_of_mem _ hc)⟩
              · have hvrs1 : v ∉ t :: rs := by
                  intro hc
                  rcases List.mem_cons.mp hc with rfl | h
                  · exact hvt rfl
                  · exact hvrs h
                obtain ⟨hw1, hw2⟩ := hbc2.1 v hv hvrs1 w he
                exact ⟨hw1, fun hc => hw2 (List.mem_cons_of_mem _ hc)⟩
            · intro v hv hvrs hcy
              by_cases hvt : v = t
              · subst hvt
                obtain ⟨d, hedge, hreach⟩ := Relation.TransGen.head'_iff.mp hcy
                have hd := hdall d hedge
                have := black_reach hbc2.1 hd hreach
                exact this.2 (List.mem_cons_self _ _)
              · have hvrs1 : v ∉ t :: rs := by
                  intro hc
                  rcases List.mem_cons.mp hc with rfl | h
                  · exact hvt rfl
                  · exact hvrs h
                exact hbc2.2 v hv hvrs1 hcy

theorem validateCyclesLoop_spec (tasks : List Task) : ∀ (roots vis : List String),
    (∀ r ∈ roots, r ∈ universeL tasks) →
    BlackClosed tasks vis [] →
    (∀ visF rsF, validateCyclesLoop tasks roots vis [] = .ok (visF, rsF) →
        BlackClosed tasks visF [] ∧ (∀ r ∈ roots, r ∈ visF) ∧ (∀ x ∈ vis, x ∈ visF)) ∧
    (∀ e, validateCyclesLoop tasks roots vis [] = .error e →
        ∃ r x, e = .cycle r ∧ r ∈ roots ∧ Relation.TransGen (Edge tasks) x x ∧
          Relation.ReflTransGen (Edge tasks) r x) := by
  intro roots
  induction roots with
  | nil =>
      intro vis _ hbc
      constructor
      · intro visF rsF h
        rw [show validateCyclesLoop tasks [] vis [] = .ok (vis, []) from rfl] at h
        injection h with h
        injection h with h1 h2
        subst h1
        exact ⟨hbc, by simp, fun x hx => hx⟩
      · intro e h
        rw [show validateCyclesLoop tasks [] vis [] = .ok (vis, []) from rfl] at h
        exact absurd h (by simp)
  | cons r rest ih =>
      intro vis hroots hbc
      by_cases hrvis : r ∈ vis
      · have hstep : validateCyclesLoop tasks (r :: rest) vis [] =
            validateCyclesLoop tasks rest vis [] := by
          simp [validateCyclesLoop, hrvis]
        rw [hstep]
        have hrec := ih vis (fun x hx => hroots x (List.mem_cons_of_mem _ hx)) hbc
        refine ⟨?_, ?_⟩
        · intro visF rsF h
          obtain ⟨h1, h2, h3⟩ := hrec.1 visF rsF h
          refine ⟨h1, ?_, h3⟩
          intro x hx
          rcases List.mem_cons.mp hx with rfl | hx2
          · exact h3 x hrvis
          · exact h2 x hx2
        · intro e h
          obtain ⟨r2, x, he, hmem, hc, hr⟩ := hrec.2 e h
          exact ⟨r2, x, he, List.mem_cons_of_mem _ hmem, hc, hr⟩
      · have hnode := dfs_node_main tasks (dfsFuel tasks) r vis []
          (by simp) hrvis (hroots r (List.mem_cons_self _ _)) (mU_lt_dfsFuel tasks vis)
          hbc (by simp)
        rcases hres : hasCycleNode tasks (dfsFuel tasks) r vis [] with ⟨b, v2, r2⟩
        rw [hres] at hnode
        cases b with
        | true =>
            have hstep : validateCyclesLoop tasks (r :: rest) vis [] =
                .error (.cycle r) := by
              simp [validateCyclesLoop, hrvis, hres]
            rw [hstep]
            constructor
            · intro visF rsF h
              exact absurd h (by simp)
            · intro e h
              injection h with h
              obtain ⟨x, hc, hr⟩ := hnode.1 rfl
              exact ⟨r, x, h.symm, List.mem_cons_self _ _, hc, hr⟩
        | false =>
            obtain ⟨hr2, hgrow, hrin, hbc2⟩ := hnode.2 rfl
            dsimp only at hr2 hgrow hrin hbc2
            subst hr2
            have hstep : validateCyclesLoop tasks (r :: rest) vis [] =
                validateCyclesLoop tasks rest v2 [] := by
              simp [validateCyclesLoop, hrvis, hres]
            rw [hstep]
            have hrec := ih v2 (fun x hx => hroots x (List.mem_cons_of_mem _ hx)) hbc2
            refine ⟨?_, ?_⟩
            · intro visF rsF h
              obtain ⟨h1, h2, h3⟩ := hrec.1 visF rsF h
              refine ⟨h1, ?_, fun x hx => h3 x (hgrow x hx)⟩
              intro x hx
              rcases List.mem_cons.mp hx with rfl | hx2
              · exact h3 x hrin
              · exact h2 x hx2
            · intro e h
              obtain ⟨r3, x, he, hmem, hc, hr⟩ := hrec.2 e h
              exact ⟨r3, x, he, List.mem_cons_of_mem _ hmem, hc, hr⟩

theorem unknownScan_ok (names : List String) :
    ∀ pairs : List (String × String), (∀ p ∈ pairs, p.2 ∈ names) →
    unknownScan names pairs = .ok () := by
  intro pairs
  induction pairs with
  | nil => intro _; rfl
  | cons p rest ih =>
      intro h
      rcases p with ⟨t, d⟩
      have hd : d ∈ names := h (t, d) (List.mem_cons_self _ _)
      have hstep : unknownScan names ((t, d) :: rest) = unknownScan names rest := by
        simp [unknownScan, hd]
      rw [hstep]
      exact ih (fun q hq => h q (List.mem_cons_of_mem _ hq))

theorem unknownScan_error (names : List String) :
    ∀ pairs : List (String × String), (∃ p ∈ pairs, p.2 ∉ names) →
    ∃ t d, unknownScan names pairs = .error (.unknownDep t d) ∧
      (t, d) ∈ pairs ∧ d ∉ names := by
  intro pairs
  induction pairs with
  | nil =>
      intro h
      obtain ⟨p, hp, _⟩ := h
      exact absurd hp (by simp)
  | cons p rest ih =>
      intro h
      rcases p with ⟨t, d⟩
      by_cases hd : d ∈ names
      · have hstep : unknownScan names ((t, d) :: rest) = unknownScan names rest := by
          simp [unknownScan, hd]
        obtain ⟨q, hq, hqn⟩ := h
        have hq2 : q ∈ rest := by
          rcases List.mem_cons.mp hq with rfl | h2
          · exact absurd hd hqn
          · exact h2
        obtain ⟨t2, d2, hscan, hmem, hdn⟩ := ih ⟨q, hq2, hqn⟩
        exact ⟨t2, d2, hstep ▸ hscan, List.mem_cons_of_mem _ hmem, hdn⟩
      · refine ⟨t, d, ?_, List.mem_cons_self _ _, hd⟩
        simp [unknownScan, hd]

theorem depPairs_mem {tasks : List Task} {p : String × String} (h : p ∈ depPairs tasks) :
    ∃ t ∈ tasks, t.name = p.1 ∧ p.2 ∈ t.depends_on := by
  simp only [depPairs, List.mem_flatten, List.mem_map] at h
  obtain ⟨l, ⟨t, ht, rfl⟩, hp⟩ := h
  obtain ⟨d, hd, rfl⟩ := List.mem_map.mp hp
  exact ⟨t, ht, rfl, hd⟩

theorem mem_depPairs {tasks : List Task} {t : Task} {d : String}
    (ht : t ∈ tasks) (hd : d ∈ t.depends_on) : (t.name, d) ∈ depPairs tasks := by
  simp only [depPairs, List.mem_flatten, List.mem_map]
  exact ⟨t.depends_on.map (fun d => (t.name, d)), ⟨t, ht, rfl⟩,
    List.mem_map_of_mem _ hd⟩

theorem validate_ok_of_acyclic {tasks : List Task} (hacy : Acyclic tasks)
    (hclosed : ∀ t ∈ tasks, ∀ d ∈ t.depends_on, d ∈ allNames tasks) :
    validate_dependency_graph tasks = .ok () := by
  have hspec := validateCyclesLoop_spec tasks (allNames tasks) []
    (fun r hr => names_subset_universe hr)
    ⟨by simp, by simp⟩
  cases hv : validateCyclesLoop tasks (allNames tasks) [] [] with
  | error e =>
      obtain ⟨r, x, _, _, hc, _⟩ := hspec.2 e hv
      exact absurd hc (hacy x)
  | ok p =>
      have hscan : unknownScan (allNames tasks) (depPairs tasks) = .ok () := by
        apply unknownScan_ok
        intro q hq
        obtain ⟨t, ht, _, hd⟩ := depPairs_mem hq
        exact hclosed t ht q.2 hd
      unfold validate_dependency_graph
      rw [hv]
      exact hscan

/-- C5 (amended): a task set whose dependency edges contain a cycle makes
`validate_dependency_graph` (hence `topological_sort` and `execute_pipeline`)
fail with a cycle `TaskDependencyError` whose named task REACHES a cycle via
`depends_on` edges (the DFS root, not necessarily a task on the cycle — see
`c5_counterexample`), and no task executor is ever invoked. -/
theorem c5_cycle_error (tasks : List Task)
    (hcyc : ∃ v, Relation.TransGen (Edge tasks) v v) :
    ∃ r, validate_dependency_graph tasks = .error (.cycle r) ∧
      topological_sort tasks = .error (.cycle r) ∧
      (∃ x, Relation.TransGen (Edge tasks) x x ∧
        Relation.ReflTransGen (Edge tasks) r x) ∧
      ∀ (env : Env) (st : EngineSt),
        (execute_pipeline env st tasks).1 = .depError (renderDepError (.cycle r)) ∧
        execCallsOf (execute_pipeline env st tasks).2.2 = [] := by
  have hspec := validateCyclesLoop_spec tasks (allNames tasks) []
    (fun r hr => names_subset_universe hr)
    ⟨by simp, by simp⟩
  cases hv : validateCyclesLoop tasks (allNames tasks) [] [] with
  | ok p =>
      exfalso
      obtain ⟨x, hx⟩ := hcyc
      rcases p with ⟨visF, rsF⟩
      obtain ⟨hbcF, hcov, _⟩ := hspec.1 visF rsF hv
      have hxn : x ∈ allNames tasks := by
        obtain ⟨w, hw, _⟩ := Relation.TransGen.head'_iff.mp hx
        exact edge_source_mem_names hw
      exact hbcF.2 x (hcov x hxn) (by simp) hx
  | error e =>
      obtain ⟨r, x, he, _, hc, hr⟩ := hspec.2 e hv
      subst he
      have hval : validate_dependency_graph tasks = .error (.cycle r) := by
        unfold validate_dependency_graph
        rw [hv]
        rfl
      have hsort : topological_sort tasks = .error (.cycle r) := by
        unfold topological_sort
        rw [hval]
        rfl
      refine ⟨r, hval, hsort, ⟨x, hc, hr⟩, ?_⟩
      intro env st
      constructor
      · simp [execute_pipeline, hsort]
      · simp [execute_pipeline, hsort, execCallsOf]

/-- Counterexample to C5 as stated: with tasks `A → B → C → B` (declaration
order A, B, C), validation raises the cycle error naming `A` — the DFS root
from which the cycle `B → C → B` was reached — although `A` lies on no cycle. -/
theorem c5_counterexample :
    validate_dependency_graph
      [{ name := "A", depends_on := ["B"] }, { name := "B", depends_on := ["C"] },
       { name := "C", depends_on := ["B"] }] = .error (.cycle "A") ∧
    ¬ Relation.TransGen
      (Edge [{ name := "A", depends_on := ["B"] }, { name := "B", depends_on := ["C"] },
             { name := "C", depends_on := ["B"] }]) "A" "A" := by
  constructor
  · rfl
  · intro h
    obtain ⟨b, _, hedge⟩ := Relation.TransGen.tail'_iff.mp h
    obtain ⟨t, hmem, hname, hdep⟩ := edge_elim hedge
    simp only [List.mem_cons, List.not_mem_nil, or_false] at hmem
    rcases hmem with rfl | rfl | rfl <;> simp_all

/-- Witness for C5 at a one-task self-loop. -/
theorem c5_cycle_error_witness :
    ∃ r, validate_dependency_graph [{ name := "A", depends_on := ["A"] }] =
        .error (.cycle r) ∧
      topological_sort [{ name := "A", depends_on := ["A"] }] = .error (.cycle r) ∧
      (∃ x, Relation.TransGen (Edge [{ name := "A", depends_on := ["A"] }]) x x ∧
        Relation.ReflTransGen (Edge [{ name := "A", depends_on := ["A"] }]) r x) ∧
      ∀ (env : Env) (st : EngineSt),
        (execute_pipeline env st [{ name := "A", depends_on := ["A"] }]).1 =
          .depError (renderDepError (.cycle r)) ∧
        execCallsOf (execute_pipeline env st [{ name := "A", depends_on := ["A"] }]).2.2
          = [] :=
  c5_cycle_error _ ⟨"A", Relation.TransGen.single (by decide)⟩

/-- C8: a task set with no dependency cycle but a dependency naming no
declared task makes validation fail with an unknown-dependency error
identifying the offending task and the missing name; `execute_pipeline`
returns a failure result and no task executor is invoked. -/
theorem c8_unknown_dependency (tasks : List Task) (hacy : Acyclic tasks)
    (hmiss : ∃ t ∈ tasks, ∃ d ∈ t.depends_on, d ∉ allNames tasks) :
    ∃ tn dn, validate_dependency_graph tasks = .error (.unknownDep tn dn) ∧
      (∃ t ∈ tasks, t.name = tn ∧ dn ∈ t.depends_on) ∧ dn ∉ allNames tasks ∧
      topological_sort tasks = .error (.unknownDep tn dn) ∧
      ∀ (env : Env) (st : EngineSt),
        (execute_pipeline env st tasks).1 =
          .depError (renderDepError (.unknownDep tn dn)) ∧
        execCallsOf (execute_pipeline env st tasks).2.2 = [] := by
  have hspec := validateCyclesLoop_spec tasks (allNames tasks) []
    (fun r hr => names_subset_universe hr)
    ⟨by simp, by simp⟩
  cases hv : validateCyclesLoop tasks (allNames tasks) [] [] with
  | error e =>
      obtain ⟨r, x, _, _, hc, _⟩ := hspec.2 e hv
      exact absurd hc (hacy x)
  | ok p =>
      obtain ⟨t, ht, d, hd, hdn⟩ := hmiss
      obtain ⟨tn, dn, hscan, hmem, hdn2⟩ := unknownScan_error (allNames tasks)
        (depPairs tasks) ⟨(t.name, d), mem_depPairs ht hd, hdn⟩
      obtain ⟨t2, ht2, hname2, hdep2⟩ := depPairs_mem hmem
      have hval : validate_dependency_graph tasks = .error (.unknownDep tn dn) := by
        unfold validate_dependency_graph
        rw [hv]
        exact hscan
      have hsort : topological_sort tasks = .error (.unknownDep tn dn) := by
        unfold topological_sort
        rw [hval]
        rfl
      refine ⟨tn, dn, hval, ⟨t2, ht2, hname2, hdep2⟩, hdn2, hsort, ?_⟩
      intro env st
      constructor
      · simp [execute_pipeline, hsort]
      · simp [execute_pipeline, hsort, execCallsOf]

/-- Witness for C8: one task `A` depending on an undeclared `X`. -/
theorem c8_unknown_dependency_witness :
    ∃ tn dn, validate_dependency_graph [{ name := "A", depends_on := ["X"] }] =
        .error (.unknownDep tn dn) ∧
      (∃ t ∈ [({ name := "A", depends_on := ["X"] } : Task)], t.name = tn ∧
        dn ∈ t.depends_on) ∧
      dn ∉ allNames [{ name := "A", depends_on := ["X"] }] ∧
      topological_sort [{ name := "A", depends_on := ["X"] }] =
        .error (.unknownDep tn dn) ∧
      ∀ (env : Env) (st : EngineSt),
        (execute_pipeline env st [{ name := "A", depends_on := ["X"] }]).1 =
          .depError (renderDepError (.unknownDep tn dn)) ∧
        execCallsOf
          (execute_pipeline env st [{ name := "A", depends_on := ["X"] }]).2.2 = [] := by
  apply c8_unknown_dependency
  · apply acyclic_of_rank (fun s => if s = "A" then 1 else 0)
    intro v w he
    obtain ⟨t, hmem, hname, hdep⟩ := edge_elim he
    simp only [List.mem_cons, List.not_mem_nil, or_false] at hmem
    subst hmem
    simp only [List.mem_cons, List.not_mem_nil, or_false] at hdep
    subst hdep
    subst hname
    decide
  · exact ⟨{ name := "A", depends_on := ["X"] }, by simp, "X", by simp, by decide⟩

theorem countP_notmem_nil (l : List String) :
    l.countP (fun d => decide (d ∉ ([] : List String))) = l.length := by
  induction l with
  | nil => rfl
  | cons a l ih => rw [List.countP_cons]; simp [ih]

theorem countP_move (t : String) (R : List String) (ht : t ∉ R) :
    ∀ l : List String,
      l.countP (fun d => decide (d ∉ R ++ [t])) + l.count t =
        l.countP (fun d => decide (d ∉ R)) := by
  intro l
  induction l with
  | nil => rfl
  | cons a l ih =>
      rw [List.countP_cons, List.countP_cons, List.count_cons]
      by_cases hat : a = t
      · have e1 : (decide (a ∉ R ++ [t])) = false := by simp [hat]
        have e2 : (a == t) = true := by simp [hat]
        have e3 : (decide (a ∉ R)) = true := by
          simp only [decide_eq_true_eq]
          rw [hat]
          exact ht
        rw [e1, e2, e3]
        simp only [Bool.false_eq_true, eq_self_iff_true, if_false, if_true]
        omega
      · have e2 : (a == t) = false := by simp [hat]
        rw [e2]
        simp only [Bool.false_eq_true, if_false]
        by_cases haR : a ∈ R
        · have e1 : (decide (a ∉ R ++ [t])) = false := by simp [haR]
          have e3 : (decide (a ∉ R)) = false := by simp [haR]
          rw [e1, e3]
          simp only [Bool.false_eq_true, eq_self_iff_true, if_false, if_true]
          omega
        · have e1 : (decide (a ∉ R ++ [t])) = true := by simp [haR, hat]
          have e3 : (decide (a ∉ R)) = true := by simp [haR]
          rw [e1, e3]
          simp only [Bool.false_eq_true, eq_self_iff_true, if_false, if_true]
          omega

theorem count_le_countP_notmem (t : String) (R : List String) (ht : t ∉ R)
    (l : List String) : l.count t ≤ l.countP (fun d => decide (d ∉ R)) := by
  have := countP_move t R ht l
  omega

theorem countP_notmem_eq_zero {R l : List String}
    (h : l.countP (fun d => decide (d ∉ R)) = 0) : ∀ d ∈ l, d ∈ R := by
  intro d hd
  by_contra hdr
  have : 0 < l.countP (fun d => decide (d ∉ R)) :=
    List.countP_pos_iff.mpr ⟨d, hd, by simp [hdr]⟩
  omega

theorem countP_notmem_pos {R l : List String}
    (h : l.countP (fun d => decide (d ∉ R)) ≠ 0) : ∃ d ∈ l, d ∉ R := by
  have : 0 < l.countP (fun d => decide (d ∉ R)) := Nat.pos_of_ne_zero h
  obtain ⟨d, hd, hp⟩ := List.countP_pos_iff.mp this
  exact ⟨d, hd, by simpa using hp⟩

theorem count_filterMap_const (d c v : String) :
    ∀ l : List String,
      (l.filterMap (fun x => if x = d then some c else none)).count v =
        if v = c then l.count d else 0 := by
  intro l
  induction l with
  | nil => simp
  | cons a l ih =>
      by_cases had : a = d
      · rw [show (a :: l).filterMap (fun x => if x = d then some c else none) =
            c :: l.filterMap (fun x => if x = d then some c else none) from by
          simp [List.filterMap_cons, had]]
        rw [List.count_cons, ih, List.count_cons]
        by_cases hvc : v = c
        · have hb : (c == v) = true := by simp [hvc]
          have hb2 : (a == d) = true := by simp [had]
          simp [hvc, hb, hb2]
        · have hb : (c == v) = false := by simp; exact fun hc => hvc hc.symm
          simp [hvc, hb]
      · rw [show (a :: l).filterMap (fun x => if x = d then some c else none) =
            l.filterMap (fun x => if x = d then some c else none) from by
          simp [List.filterMap_cons, had]]
        rw [ih, List.count_cons]
        have hb : (a == d) = false := by simp [had]
        simp [hb]

theorem count_adjacencyOf {tasks : List Task} (hnod : (allNames tasks).Nodup)
    (d v : String) :
    (adjacencyOf tasks d).count v =
      if v ∈ allNames tasks then (deps tasks v).count d else 0 := by
  induction tasks with
  | nil => simp [adjacencyOf, allNames, deps, getTask]
  | cons t ts ih =>
      have hnod2 : (allNames ts).Nodup := by
        simp only [allNames, List.map_cons] at hnod
        exact (List.nodup_cons.mp hnod).2
      have htnin : t.name ∉ allNames ts := by
        simp only [allNames, List.map_cons] at hnod
        exact (List.nodup_cons.mp hnod).1
      have hadj : adjacencyOf (t :: ts) d =
          t.depends_on.filterMap (fun x => if x = d then some t.name else none) ++
            adjacencyOf ts d := by
        simp [adjacencyOf]
      rw [hadj, List.count_append, count_filterMap_const, ih hnod2]
      by_cases hv : v = t.name
      · have hbeq : (t.name == v) = true := by simp [hv]
        have hdeps : deps (t :: ts) v = t.depends_on := by
          simp [deps, getTask, List.find?, hbeq]
        have hmem : v ∈ allNames (t :: ts) := by simp [allNames, hv]
        have hvnin : v ∉ allNames ts := by rw [hv]; exact htnin
        rw [if_pos hv, if_neg hvnin, if_pos hmem, hdeps]
        omega
      · have hbeq : (t.name == v) = false := by
          simp
          exact fun hc => hv hc.symm
        have hdeps : deps (t :: ts) v = deps ts v := by
          simp [deps, getTask, List.find?, hbeq]
        have hmem : (v ∈ allNames (t :: ts)) ↔ v ∈ allNames ts := by
          simp [allNames, hv]
        rw [if_neg hv, hdeps]
        by_cases hvm : v ∈ allNames ts
        · rw [if_pos hvm, if_pos (hmem.mpr hvm)]
          omega
        · rw [if_neg hvm, if_neg (fun hc => hvm (hmem.mp hc))]

theorem processAdj_spec : ∀ (neigh q : List String) (ind : String → Int),
    (∀ x, (processAdj neigh q ind).2 x = ind x - (neigh.count x : Int)) ∧
    ∃ extra, (processAdj neigh q ind).1 = q ++ extra ∧ extra.Nodup ∧
      (∀ v, v ∈ extra ↔ (1 ≤ ind v ∧ ind v ≤ (neigh.count v : Int))) := by
  intro neigh
  induction neigh with
  | nil =>
      intro q ind
      refine ⟨fun x => by simp [processAdj], [], by simp [processAdj], by simp, ?_⟩
      intro v
      simp only [List.not_mem_nil, false_iff, List.count_nil, Nat.cast_zero]
      intro hc
      omega
  | cons v rest ih =>
      intro q ind
      have hstep : processAdj (v :: rest) q ind =
          processAdj rest
            (if (fun x => if x = v then ind x - 1 else ind x) v = 0 then q ++ [v] else q)
            (fun x => if x = v then ind x - 1 else ind x) := rfl
      have hcount : ∀ x : String, ((v :: rest).count x : Int) =
          (rest.count x : Int) + (if x = v then 1 else 0) := by
        intro x
        rw [List.count_cons]
        by_cases hxv : x = v
        · have hb : (v == x) = true := by simp [hxv]
          rw [hb]
          simp [hxv]
        · have hb : (v == x) = false := by
            simp
            exact fun hc => hxv hc.symm
          rw [hb]
          simp [hxv]
      by_cases henq : ind v - 1 = 0
      · have hq1 : (if (fun x => if x = v then ind x - 1 else ind x) v = 0
            then q ++ [v] else q) = q ++ [v] := by simp [henq]
        rw [hstep, hq1]
        obtain ⟨hpt, extra, he1, he2, he3⟩ := ih (q ++ [v])
          (fun x => if x = v then ind x - 1 else ind x)
        refine ⟨?_, v :: extra, ?_, ?_, ?_⟩
        · intro x
          rw [hpt x, hcount x]
          by_cases hxv : x = v
          · simp only [hxv, eq_self_iff_true, if_true]
            omega
          · simp only [hxv, if_false]
            omega
        · rw [he1, List.append_assoc]
          rfl
        · rw [List.nodup_cons]
          refine ⟨fun hc => ?_, he2⟩
          have hvv := (he3 v).mp hc
          simp only [eq_self_iff_true, if_true] at hvv
          omega
        · intro x
          rw [List.mem_cons, he3 x, hcount x]
          by_cases hxv : x = v
          · simp only [hxv, eq_self_iff_true, if_true, true_or, true_iff]
            omega
          · simp only [hxv, if_false, false_or]
            omega
      · have hq1 : (if (fun x => if x = v then ind x - 1 else ind x) v = 0
            then q ++ [v] else q) = q := by simp [henq]
        rw [hstep, hq1]
        obtain ⟨hpt, extra, he1, he2, he3⟩ := ih q
          (fun x => if x = v then ind x - 1 else ind x)
        refine ⟨?_, extra, he1, he2, ?_⟩
        · intro x
          rw [hpt x, hcount x]
          by_cases hxv : x = v
          · simp only [hxv, eq_self_iff_true, if_true]
            omega
          · simp only [hxv, if_false]
            omega
        · intro x
          rw [he3 x, hcount x]
          by_cases hxv : x = v
          · simp only [hxv, eq_self_iff_true, if_true]
            omega
          · simp only [hxv, if_false]
            omega

theorem KInv_init (tasks : List Task) (hnod : (allNames tasks).Nodup) :
    KInv tasks ((allNames tasks).filter (fun n => indeg0 tasks n == 0)) [] (indeg0 tasks) := by
  refine ⟨?_, ?_, ?_, ?_, ?_, ?_⟩
  · simpa using hnod.filter _
  · intro x hx
    simp only [List.nil_append] at hx
    exact List.mem_of_mem_filter hx
  · intro v _
    unfold indeg0
    rw [countP_notmem_nil]
  · intro v hv
    have := List.of_mem_filter hv
    simpa using this
  · intro v hv h0
    right
    exact List.mem_filter.mpr ⟨hv, by simpa using h0⟩
  · intro i v h
    simp at h

theorem KInv_step {tasks : List Task} (hnod : (allNames tasks).Nodup)
    (t : String) (Q R : List String) (ind : String → Int)
    (hinv : KInv tasks (t :: Q) R ind) :
    KInv tasks (processAdj (adjacencyOf tasks t) Q ind).1 (R ++ [t])
      (processAdj (adjacencyOf tasks t) Q ind).2 := by
  obtain ⟨h1, h2, h3, h4, h5, h6⟩ := hinv
  obtain ⟨hpt, extra, heq, hnde, hmem⟩ := processAdj_spec (adjacencyOf tasks t) Q ind
  have hRnodup : R.Nodup := (List.nodup_append.mp h1).1
  have htQnodup : (t :: Q).Nodup := (List.nodup_append.mp h1).2.1
  have hdisj : R.Disjoint (t :: Q) := (List.nodup_append.mp h1).2.2
  have htQ : t ∉ Q := (List.nodup_cons.mp htQnodup).1
  have hQnodup : Q.Nodup := (List.nodup_cons.mp htQnodup).2
  have htR : t ∉ R := fun hc => hdisj hc (List.mem_cons_self _ _)
  have htn : t ∈ allNames tasks :=
    h2 t (List.mem_append.mpr (Or.inr (List.mem_cons_self _ _)))
  have hindT : ind t = 0 := h4 t (List.mem_cons_self _ _)
  have hzero_deps : ∀ v, v ∈ allNames tasks → ind v = 0 → ∀ d ∈ deps tasks v, d ∈ R := by
    intro v hv h0
    apply countP_notmem_eq_zero
    have := h3 v hv
    omega
  have hdepsT : ∀ d ∈ deps tasks t, d ∈ R := hzero_deps t htn hindT
  have hRzero : ∀ v ∈ R, ind v = 0 := by
    intro v hv
    obtain ⟨i, hi⟩ := List.get?_of_mem hv
    have hdv := h6 i v hi
    have hvn : v ∈ allNames tasks := h2 v (List.mem_append.mpr (Or.inl hv))
    have hz : (deps tasks v).countP (fun d => decide (d ∉ R)) = 0 := by
      rw [List.countP_eq_zero]
      intro d hd
      simp only [decide_eq_true_eq, Decidable.not_not]
      exact List.take_subset i R (hdv d hd)
    rw [h3 v hvn, hz]
    rfl
  have hcountA : ∀ v, (adjacencyOf tasks t).count v =
      if v ∈ allNames tasks then (deps tasks v).count t else 0 :=
    fun v => count_adjacencyOf hnod t v
  have hextra_names : ∀ v ∈ extra, v ∈ allNames tasks := by
    intro v hv
    have hm := (hmem v).mp hv
    by_contra hvn
    rw [hcountA v, if_neg hvn] at hm
    omega
  have hextra_eq : ∀ v ∈ extra, ((adjacencyOf tasks t).count v : Int) = ind v := by
    intro v hv
    have hm := (hmem v).mp hv
    have hvn := hextra_names v hv
    have hle : (deps tasks v).count t ≤ (deps tasks v).countP (fun d => decide (d ∉ R)) :=
      count_le_countP_notmem t R htR _
    have h3v := h3 v hvn
    rw [hcountA v, if_pos hvn] at hm ⊢
    omega
  have hQcount : ∀ v ∈ Q, (adjacencyOf tasks t).count v = 0 := by
    intro v hv
    have hvn : v ∈ allNames tasks :=
      h2 v (List.mem_append.mpr (Or.inr (List.mem_cons_of_mem _ hv)))
    have h0 : ind v = 0 := h4 v (List.mem_cons_of_mem _ hv)
    have hsub := hzero_deps v hvn h0
    rw [hcountA v, if_pos hvn]
    rw [List.count_eq_zero]
    exact fun hc => htR (hsub t hc)
  have hRcount : ∀ v ∈ R, (adjacencyOf tasks t).count v = 0 := by
    intro v hv
    have hvn : v ∈ allNames tasks := h2 v (List.mem_append.mpr (Or.inl hv))
    have hsub := hzero_deps v hvn (hRzero v hv)
    rw [hcountA v, if_pos hvn]
    rw [List.count_eq_zero]
    exact fun hc => htR (hsub t hc)
  have hextra_nR : ∀ v ∈ extra, v ∉ R := by
    intro v hv hc
    have := hRzero v hc
    have := hextra_eq v hv
    have := (hmem v).mp hv
    omega
  have hextra_nQ : ∀ v ∈ extra, v ∉ Q := by
    intro v hv hc
    have := h4 v (List.mem_cons_of_mem _ hc)
    have := (hmem v).mp hv
    omega
  have hextra_nt : t ∉ extra := by
    intro hc
    have := (hmem t).mp hc
    omega
  rw [heq]
  refine ⟨?_, ?_, ?_, ?_, ?_, ?_⟩
  · -- Nodup (R ++ [t] ++ (Q ++ extra))
    rw [List.nodup_append]
    refine ⟨?_, ?_, ?_⟩
    · rw [List.nodup_append]
      refine ⟨hRnodup, List.nodup_singleton t, ?_⟩
      intro x hx hc
      rw [List.mem_singleton] at hc
      subst hc
      exact htR hx
    · rw [List.nodup_append]
      refine ⟨hQnodup, hnde, ?_⟩
      intro x hx hc
      exact hextra_nQ x hc hx
    · intro x hx hc
      rcases List.mem_append.mp hx with hxR | hxt
      · rcases List.mem_append.mp hc with hxQ | hxe
        · exact hdisj hxR (List.mem_cons_of_mem _ hxQ)
        · exact hextra_nR x hxe hxR
      · rw [List.mem_singleton] at hxt
        subst hxt
        rcases List.mem_append.mp hc with hxQ | hxe
        · exact htQ hxQ
        · exact hextra_nt hxe
  · intro x hx
    rcases List.mem_append.mp hx with hx1 | hx2
    · rcases List.mem_append.mp hx1 with hxR | hxt
      · exact h2 x (List.mem_append.mpr (Or.inl hxR))
      · rw [List.mem_singleton] at hxt
        subst hxt
        exact htn
    · rcases List.mem_append.mp hx2 with hxQ | hxe
      · exact h2 x (List.mem_append.mpr (Or.inr (List.mem_cons_of_mem _ hxQ)))
      · exact hextra_names x hxe
  · intro v hvn
    rw [hpt v, h3 v hvn, hcountA v, if_pos hvn]
    have hmove := countP_move t R htR (deps tasks v)
    omega
  · intro v hv
    rcases List.mem_append.mp hv with hvQ | hve
    · rw [hpt v, h4 v (List.mem_cons_of_mem _ hvQ), hQcount v hvQ]
      rfl
    · rw [hpt v]
      have := hextra_eq v hve
      omega
  · intro v hvn h0
    rw [hpt v] at h0
    by_cases hiv : ind v = 0
    · rcases h5 v hvn hiv with hvR | hvtQ
      · exact Or.inl (List.mem_append.mpr (Or.inl hvR))
      · rcases List.mem_cons.mp hvtQ with rfl | hvQ
        · exact Or.inl (List.mem_append.mpr (Or.inr (List.mem_singleton.mpr rfl)))
        · exact Or.inr (List.mem_append.mpr (Or.inl hvQ))
    · right
      refine List.mem_append.mpr (Or.inr ((hmem v).mpr ⟨?_, ?_⟩))
      · have := h3 v hvn
        have : (0 : Int) ≤ ((deps tasks v).countP (fun d => decide (d ∉ R)) : Int) := by
          positivity
        omega
      · omega
  · intro i v hget
    by_cases hi : i < R.length
    · have hg : R.get? i = some v := by
        rw [← hget]
        exact (List.get?_append hi).symm
      have := h6 i v hg
      intro d hd
      have hdR := this d hd
      rw [List.take_append_of_le_length (le_of_lt hi)]
      exact hdR
    · have hge : R.length ≤ i := le_of_not_lt hi
      have hg2 : (R ++ [t]).get? i = [t].get? (i - R.length) := List.get?_append_right hge
      rw [hg2] at hget
      have hi0 : i - R.length = 0 := by
        by_contra hne
        have : 1 ≤ i - R.length := Nat.pos_of_ne_zero hne
        have : [t].get? (i - R.length) = none := by
          apply List.get?_eq_none.mpr
          simpa using this
        rw [this] at hget
        exact Option.noConfusion hget
      rw [hi0] at hget
      have hvt : v = t := by
        simpa using hget.symm
      subst hvt
      have hieq : i = R.length := by omega
      intro d hd
      rw [hieq, List.take_left]
      exact hdepsT d hd

theorem kahnLoop_main {tasks : List Task}
    (hclosed : ∀ t ∈ tasks, ∀ d ∈ t.depends_on, d ∈ allNames tasks)
    (hacy : Acyclic tasks) (hnod : (allNames tasks).Nodup) :
    ∀ fuel Q R ind, KInv tasks Q R ind →
      (allNames tasks).length ≤ fuel + R.length →
      (kahnLoop tasks fuel Q R ind).Nodup ∧
      (∀ v, v ∈ kahnLoop tasks fuel Q R ind ↔ v ∈ allNames tasks) ∧
      (∀ i v, (kahnLoop tasks fuel Q R ind).get? i = some v →
        ∀ d ∈ deps tasks v, d ∈ (kahnLoop tasks fuel Q R ind).take i) := by
  intro fuel
  induction fuel with
  | zero =>
      intro Q R ind hinv hlen
      obtain ⟨h1, h2, h3, h4, h5, h6⟩ := hinv
      have hout : kahnLoop tasks 0 Q R ind = R := rfl
      rw [hout]
      have hRnodup : R.Nodup := (List.nodup_append.mp h1).1
      have hsub : ∀ v ∈ R, v ∈ allNames tasks :=
        fun v hv => h2 v (List.mem_append.mpr (Or.inl hv))
      have hcover : ∀ v ∈ allNames tasks, v ∈ R := by
        classical
        have hss : R.toFinset ⊆ (allNames tasks).toFinset := by
          intro x hx
          exact List.mem_toFinset.mpr (hsub x (List.mem_toFinset.mp hx))
        have hcR : R.toFinset.card = R.length := List.toFinset_card_of_nodup hRnodup
        have hcN : (allNames tasks).toFinset.card = (allNames tasks).length :=
          List.toFinset_card_of_nodup hnod
        have heqf : R.toFinset = (allNames tasks).toFinset :=
          Finset.eq_of_subset_of_card_le hss (by omega)
        intro v hv
        have : v ∈ R.toFinset := heqf ▸ List.mem_toFinset.mpr hv
        exact List.mem_toFinset.mp this
      exact ⟨hRnodup, fun v => ⟨hsub v, hcover v⟩, h6⟩
  | succ fuel ih =>
      intro Q R ind hinv hlen
      cases Q with
      | nil =>
          obtain ⟨h1, h2, h3, h4, h5, h6⟩ := hinv
          have hout : kahnLoop tasks (fuel + 1) [] R ind = R := rfl
          rw [hout]
          have hRnodup : R.Nodup := (List.nodup_append.mp h1).1
          have hsub : ∀ v ∈ R, v ∈ allNames tasks :=
            fun v hv => h2 v (List.mem_append.mpr (Or.inl hv))
          have hcover : ∀ v ∈ allNames tasks, v ∈ R := by
            classical
            intro v hv
            by_contra hvR
            have hvS : v ∈ (allNames tasks).toFinset \ R.toFinset :=
              Finset.mem_sdiff.mpr ⟨List.mem_toFinset.mpr hv,
                fun hc => hvR (List.mem_toFinset.mp hc)⟩
            have hsucc : ∀ u ∈ (allNames tasks).toFinset \ R.toFinset,
                ∃ w ∈ (allNames tasks).toFinset \ R.toFinset, Edge tasks u w := by
              intro u hu
              obtain ⟨hun, huR⟩ := Finset.mem_sdiff.mp hu
              have hun2 : u ∈ allNames tasks := List.mem_toFinset.mp hun
              have huR2 : u ∉ R := fun hc => huR (List.mem_toFinset.mpr hc)
              have hind : ind u ≠ 0 := by
                intro h0
                rcases h5 u hun2 h0 with hR | hQ
                · exact huR2 hR
                · simp at hQ
              have hcp : (deps tasks u).countP (fun d => decide (d ∉ R)) ≠ 0 := by
                intro hc
                apply hind
                rw [h3 u hun2, hc]
                rfl
              obtain ⟨d, hd, hdR⟩ := countP_notmem_pos hcp
              have hde : Edge tasks u d := hd
              have hdn : d ∈ allNames tasks := by
                obtain ⟨tk, htk, _, hdd⟩ := edge_elim hde
                exact hclosed tk htk d hdd
              exact ⟨d, Finset.mem_sdiff.mpr ⟨List.mem_toFinset.mpr hdn,
                fun hc => hdR (List.mem_toFinset.mp hc)⟩, hde⟩
            obtain ⟨x, hx⟩ := exists_cycle_of_succ tasks _ ⟨v, hvS⟩ hsucc
            exact hacy x hx
          exact ⟨hRnodup, fun v => ⟨hsub v, hcover v⟩, h6⟩
      | cons t q =>
          have hstep := KInv_step hnod t q R ind hinv
          have hout : kahnLoop tasks (fuel + 1) (t :: q) R ind =
              kahnLoop tasks fuel (processAdj (adjacencyOf tasks t) q ind).1 (R ++ [t])
                (processAdj (adjacencyOf tasks t) q ind).2 := rfl
          rw [hout]
          apply ih _ _ _ hstep
          simp only [List.length_append, List.length_singleton]
          omega

/-- C4: on a task set whose names are distinct, whose declared dependencies all
name tasks in the set, and whose dependency graph is acyclic,
`topological_sort` returns (no `TaskDependencyError`) a permutation of the task
names in which every task appears strictly after each of its declared
dependencies. -/
theorem c4_topological_order (tasks : List Task)
    (hnod : (allNames tasks).Nodup)
    (hclosed : ∀ t ∈ tasks, ∀ d ∈ t.depends_on, d ∈ allNames tasks)
    (hacy : Acyclic tasks) :
    ∃ plan, topological_sort tasks = .ok plan ∧
      plan.Perm (allNames tasks) ∧
      (∀ i v, plan.get? i = some v → ∀ d ∈ deps tasks v, d ∈ plan.take i) := by
  have hvalid := validate_ok_of_acyclic hacy hclosed
  refine ⟨kahnLoop tasks (allNames tasks).length
    ((allNames tasks).filter (fun n => indeg0 tasks n == 0)) [] (indeg0 tasks), ?_, ?_, ?_⟩
  · unfold topological_sort
    rw [hvalid]
    rfl
  · have hmain := kahnLoop_main hclosed hacy hnod (allNames tasks).length
      ((allNames tasks).filter (fun n => indeg0 tasks n == 0)) [] (indeg0 tasks)
      (KInv_init tasks hnod) (by simp)
    exact (List.perm_ext_iff_of_nodup hmain.1 hnod).mpr hmain.2.1
  · exact (kahnLoop_main hclosed hacy hnod (allNames tasks).length
      ((allNames tasks).filter (fun n => indeg0 tasks n == 0)) [] (indeg0 tasks)
      (KInv_init tasks hnod) (by simp)).2.2

theorem c4_topological_order_witness :
    ∃ plan, topological_sort [{ name := "ingest" }, { name := "report" }] = .ok plan ∧
      plan.Perm (allNames [{ name := "ingest" }, { name := "report" }]) ∧
      (∀ i v, plan.get? i = some v →
        ∀ d ∈ deps [{ name := "ingest" }, { name := "report" }] v, d ∈ plan.take i) :=
  c4_topological_order _ (by decide) (by decide) (acyclic_of_no_deps (by decide))

end Orchestration
